import Mathlib

/-!
Verification of the LEB128 codec (leb128.go).

The Go code decodes from an `io.Reader` one byte at a time.  A read can yield
a byte, signal `io.EOF`, or signal some other transport error; we model the
reader as a list of such read outcomes, where an exhausted list behaves like a
reader that keeps returning `io.EOF`.  Decoders pass the reader state
explicitly: they return the result together with the part of the source that
was not consumed.  Machine integers (`uint32`, `uint64`, `int64`) are
modelled as `Nat` reduced `% 2^32` / `% 2^64`, with `int64` values carried in
two's-complement bit form and converted back to `Int` at the end.
-/

namespace Leb128

/-- One outcome of reading a single byte from the caller-supplied source:
a byte value, a clean end-of-input (`io.EOF`), or another failure identified
by an opaque code. -/
inductive ReadResult where
  | byte (b : Nat)
  | eof
  | fail (e : Nat)
deriving DecidableEq, Repr

/-- The errors a decode operation can return: the two domain errors
`ErrOverflow` and `ErrNonMinimal`, or a propagated source failure. -/
inductive DecodeErr where
  | overflow
  | nonMinimal
  | source (e : Nat)
deriving DecidableEq, Repr

/-- Interpret a 64-bit two's-complement bit pattern (a `Nat` below `2^64`) as
the mathematical value of the corresponding `int64`. -/
def toInt64 (n : Nat) : Int :=
  if n < 2^63 then (n : Int) else (n : Int) - 2^64

/-- All byte payloads appearing in a source are actual bytes (below 256). -/
def SrcBytes (src : List ReadResult) : Prop :=
  ∀ b : Nat, ReadResult.byte b ∈ src → b < 256

instance (src : List ReadResult) : Decidable (SrcBytes src) := by
  unfold SrcBytes
  induction src with
  | nil => exact .isTrue (by intro b h; cases h)
  | cons r t ih =>
    cases ih with
    | isTrue ht =>
      cases r with
      | byte b =>
        cases Nat.decLt b 256 with
        | isTrue hb =>
          exact .isTrue (by
            intro c hc
            rcases List.mem_cons.1 hc with h | h
            · cases h; exact hb
            · exact ht c h)
        | isFalse hb =>
          exact .isFalse (fun h => hb (h b (List.mem_cons_self _ _)))
      | eof =>
        exact .isTrue (by
          intro c hc
          rcases List.mem_cons.1 hc with h | h
          · cases h
          · exact ht c h)
      | fail e =>
        exact .isTrue (by
          intro c hc
          rcases List.mem_cons.1 hc with h | h
          · cases h
          · exact ht c h)
    | isFalse ht =>
      exact .isFalse (fun h => ht (fun c hc => h c (List.mem_cons_of_mem _ hc)))

/-- The loop of `DecodeU32`: `res` and `shift` are the accumulator and shift
counter of the Go loop; each list element is one `r.Read` outcome. -/
def decodeU32Loop : List ReadResult → Nat → Nat → Except DecodeErr Nat × List ReadResult
  | [], _, _ => (Except.error DecodeErr.nonMinimal, [])
  | ReadResult.eof :: rest, _, _ => (Except.error DecodeErr.nonMinimal, rest)
  | ReadResult.fail e :: rest, _, _ => (Except.error (DecodeErr.source e), rest)
  | ReadResult.byte b :: rest, res, shift =>
    let res' := (res ||| (b &&& 0x7F) <<< shift) % 2^32
    let shift' := shift + 7
    if b &&& 0x80 = 0 then
      if shift' > 32 ∧ b > 0b1111 then (Except.error DecodeErr.overflow, rest)
      else if shift' > 7 ∧ b = 0 then (Except.error DecodeErr.nonMinimal, rest)
      else (Except.ok res', rest)
    else if shift' > 32 then (Except.error DecodeErr.overflow, rest)
    else decodeU32Loop rest res' shift'

/-- The operation `DecodeU32` converts a uleb128 byte stream to a `uint32`, returning the
result and the unconsumed part of the source. -/
def DecodeU32 (src : List ReadResult) : Except DecodeErr Nat × List ReadResult :=
  decodeU32Loop src 0 0

/-- The loop of `DecodeU64`. -/
def decodeU64Loop : List ReadResult → Nat → Nat → Except DecodeErr Nat × List ReadResult
  | [], _, _ => (Except.error DecodeErr.nonMinimal, [])
  | ReadResult.eof :: rest, _, _ => (Except.error DecodeErr.nonMinimal, rest)
  | ReadResult.fail e :: rest, _, _ => (Except.error (DecodeErr.source e), rest)
  | ReadResult.byte b :: rest, res, shift =>
    let res' := (res ||| (b &&& 0x7F) <<< shift) % 2^64
    let shift' := shift + 7
    if b &&& 0x80 = 0 then
      if shift' > 64 ∧ b > 1 then (Except.error DecodeErr.overflow, rest)
      else if shift' > 7 ∧ b = 0 then (Except.error DecodeErr.nonMinimal, rest)
      else (Except.ok res', rest)
    else if shift' > 64 then (Except.error DecodeErr.overflow, rest)
    else decodeU64Loop rest res' shift'

/-- The operation `DecodeU64` converts a uleb128 byte stream to a `uint64`. -/
def DecodeU64 (src : List ReadResult) : Except DecodeErr Nat × List ReadResult :=
  decodeU64Loop src 0 0

/-- The loop of `DecodeS64`.  The `int64` accumulator is carried as its
two's-complement bit pattern (a `Nat` below `2^64`); `prev` is the raw value
of the previous byte.  Go's `res |= -1 << shift` (for `shift < 64`) sets bits
`shift` to `63`, i.e. ORs in `2^64 - 2^shift`. -/
def decodeS64Loop : List ReadResult → Nat → Nat → Nat → Except DecodeErr Int × List ReadResult
  | [], _, _, _ => (Except.error DecodeErr.nonMinimal, [])
  | ReadResult.eof :: rest, _, _, _ => (Except.error DecodeErr.nonMinimal, rest)
  | ReadResult.fail e :: rest, _, _, _ => (Except.error (DecodeErr.source e), rest)
  | ReadResult.byte b :: rest, res, shift, prev =>
    let res' := (res ||| (b &&& 0x7F) <<< shift) % 2^64
    let shift' := shift + 7
    if b &&& 0x80 = 0 then
      if shift' > 64 ∧ b ≠ 0 ∧ b ≠ 0x7F then (Except.error DecodeErr.overflow, rest)
      else if shift' > 7 ∧ ((b = 0 ∧ prev &&& 0x40 = 0) ∨ (b = 0x7F ∧ prev &&& 0x40 > 0)) then
        (Except.error DecodeErr.nonMinimal, rest)
      else if shift' < 64 ∧ b &&& 0x40 > 0 then
        (Except.ok (toInt64 (res' ||| (2^64 - 2^shift'))), rest)
      else (Except.ok (toInt64 res'), rest)
    else if shift' > 64 then (Except.error DecodeErr.overflow, rest)
    else decodeS64Loop rest res' shift' b

/-- The operation `DecodeS64` converts a sleb128 byte stream to an `int64`. -/
def DecodeS64 (src : List ReadResult) : Except DecodeErr Int × List ReadResult :=
  decodeS64Loop src 0 0 0

/-- The operation `EncodeU32` converts `num` to a uleb128 encoded list of bytes.  The byte
appended each round is `num &&& 0x7F`; Go's `num >> 7` on `uint32` is the
logical shift `>>>` on `Nat`, and the continuation bit is set unless the
shifted value is zero. -/
def EncodeU32 (num : Nat) : List Nat :=
  if num >>> 7 = 0 then [num &&& 0x7F]
  else (num &&& 0x7F ||| 0x80) :: EncodeU32 (num >>> 7)
termination_by num
decreasing_by
  simp only [Nat.shiftRight_eq_div_pow] at *
  exact Nat.div_lt_self (by omega) (by norm_num)

/-- The operation `EncodeU64` converts `num` to a uleb128 encoded list of bytes. -/
def EncodeU64 (num : Nat) : List Nat :=
  if num >>> 7 = 0 then [num &&& 0x7F]
  else (num &&& 0x7F ||| 0x80) :: EncodeU64 (num >>> 7)
termination_by num
decreasing_by
  simp only [Nat.shiftRight_eq_div_pow] at *
  exact Nat.div_lt_self (by omega) (by norm_num)

/-- The operation `EncodeS64` converts `num` to a sleb128 encoded list of bytes.
Go's `byte(num & 0x7F)` is the two's-complement low 7 bits of the `int64`,
i.e. `(Int.emod num 128).toNat`; the arithmetic shift `num >>= 7` is flooring
division by 128, `Int.fdiv num 128`; `signBit` is bit 0x40 of the extracted
byte, and the loop stops when the shifted value together with that sign bit
already determines the whole value. -/
def EncodeS64 (num : Int) : List Nat :=
  if (Int.fdiv num 128 = 0 ∧ (Int.emod num 128).toNat &&& 0x40 = 0) ∨
     (Int.fdiv num 128 = -1 ∧ (Int.emod num 128).toNat &&& 0x40 ≠ 0) then
    [(Int.emod num 128).toNat]
  else ((Int.emod num 128).toNat ||| 0x80) :: EncodeS64 (Int.fdiv num 128)
termination_by num.natAbs
decreasing_by
  rename_i hcont
  have h0 : num ≠ 0 := by rintro rfl; exact hcont (Or.inl ⟨by decide, by decide⟩)
  have h1 : num ≠ -1 := by rintro rfl; exact hcont (Or.inr ⟨by decide, by decide⟩)
  rw [Int.fdiv_eq_ediv _ (by norm_num)]
  omega

/-! ### Arithmetic helper lemmas -/

theorem two_pow_add_seven (s : Nat) : 2^(s+7) = 2^s * 128 := by
  rw [pow_add]; norm_num

/-- ORing a value shifted past the top of `res` is addition of disjoint
bit ranges. -/
theorem lor_shiftLeft (res b n : Nat) (h : res < 2^n) :
    res ||| b <<< n = 2^n * b + res := by
  refine Nat.eq_of_testBit_eq fun j => ?_
  rw [Nat.testBit_lor, Nat.testBit_shiftLeft, Nat.testBit_mul_pow_two_add _ h]
  by_cases hj : j < n
  · have hge : ¬ (j ≥ n) := Nat.not_le.2 hj
    simp [hj, hge]
  · have hge : j ≥ n := Nat.le_of_not_lt hj
    have hres : res.testBit j = false :=
      Nat.testBit_eq_false_of_lt
        (Nat.lt_of_lt_of_le h (Nat.pow_le_pow_right (by norm_num) hge))
    simp [hj, hge, hres]

theorem and127_eq_mod (b : Nat) : b &&& 127 = b % 128 := by
  have h : (127 : Nat) = 2^7 - 1 := rfl
  rw [h, Nat.and_pow_two_sub_one_eq_mod]

set_option maxRecDepth 4000 in
/-- Bit facts about a 7-bit payload and its continuation-flagged form. -/
theorem byteFacts : ∀ b : Nat, b < 128 →
    b &&& 128 = 0 ∧ b ||| 128 = b + 128 ∧ (b ||| 128) &&& 128 ≠ 0 ∧
    (b ||| 128) &&& 127 = b ∧ (b ||| 128) &&& 64 = b &&& 64 := by decide

set_option maxRecDepth 8000 in
/-- Splitting a byte on its continuation flag. -/
theorem byteSplit : ∀ b : Nat, b < 256 →
    (b &&& 128 = 0 → b < 128) ∧
    (b &&& 128 ≠ 0 → 128 ≤ b ∧ b &&& 127 = b - 128 ∧ b &&& 64 = (b - 128) &&& 64) := by
  decide

theorem and64_iff : ∀ b : Nat, b < 128 → (b &&& 64 = 0 ↔ b < 64) := by decide

/-! ### Round-trip: decoding an encoding succeeds with the original value -/

/-- Generalized round-trip invariant for `DecodeU32`: from accumulator `res`
and shift counter `shift`, consuming the encoding of the remaining value
`num` succeeds and adds `num`'s bits above position `shift`. -/
theorem decodeU32Loop_encode (num : Nat) : ∀ (res shift : Nat) (rest : List ReadResult),
    7 ∣ shift → shift ≤ 28 → res < 2^shift →
    2^shift * num < 2^32 → (shift = 0 ∨ num ≠ 0) →
    decodeU32Loop (List.map ReadResult.byte (EncodeU32 num) ++ rest) res shift
      = (Except.ok (res + 2^shift * num), rest) := by
  induction num using Nat.strong_induction_on with
  | _ num ih =>
  intro res shift rest h7 hsh hres hnum hnz
  rw [EncodeU32]
  by_cases h0 : num >>> 7 = 0
  · -- final byte: num < 128, terminator is num itself
    have hlt : num < 128 := by
      have h0' := h0
      rw [Nat.shiftRight_eq_div_pow] at h0'
      norm_num at h0'
      omega
    have hand : num &&& 127 = num := by rw [and127_eq_mod]; omega
    have h128 : num &&& 128 = 0 := (byteFacts num hlt).1
    simp only [if_pos h0, List.map_cons, List.map_nil, List.nil_append,
      List.cons_append, decodeU32Loop, hand, if_pos h128]
    have hib : ¬ (shift + 7 > 32 ∧ num > 15) := by
      rintro ⟨hgt, hnum15⟩
      have hs28 : shift = 28 := by omega
      subst hs28
      norm_num at hnum
      omega
    have hib2 : ¬ (shift + 7 > 7 ∧ num = 0) := by
      rintro ⟨hgt, rfl⟩
      rcases hnz with h | h
      · omega
      · exact h rfl
    rw [if_neg hib, if_neg hib2]
    have hlor : res ||| num <<< shift = 2^shift * num + res := lor_shiftLeft _ _ _ hres
    have hbound : 2^shift * num + res < 2^32 := by
      by_cases hc : shift + 7 ≤ 32
      · have h1 : 2^shift * num + res < 2^(shift+7) := by
          rw [two_pow_add_seven]
          have : 2^shift * num + res < 2^shift * (num + 1) := by
            rw [Nat.mul_add, Nat.mul_one]
            omega
          have h2 : 2^shift * (num + 1) ≤ 2^shift * 128 :=
            Nat.mul_le_mul_left _ (by omega)
          omega
        exact Nat.lt_of_lt_of_le h1 (Nat.pow_le_pow_right (by norm_num) hc)
      · have hs28 : shift = 28 := by omega
        subst hs28
        have h15 : num ≤ 15 := by
          by_contra hgt
          exact hib ⟨by omega, by omega⟩
        norm_num at hres ⊢
        omega
    rw [hlor, Nat.mod_eq_of_lt hbound]
    rw [Nat.add_comm]
  · -- continuation byte
    have hge : 128 ≤ num := by
      rw [Nat.shiftRight_eq_div_pow] at h0
      norm_num at h0
      omega
    have hlow : num &&& 127 < 128 := by rw [and127_eq_mod]; omega
    obtain ⟨-, hor, hflag, hor127, -⟩ := byteFacts _ hlow
    have hsle : shift + 7 ≤ 32 := by
      have h1 : 2^(shift+7) ≤ 2^shift * num := by
        rw [two_pow_add_seven]
        exact Nat.mul_le_mul_left _ hge
      have h2 : 2^(shift+7) < 2^32 := by omega
      have := (Nat.pow_lt_pow_iff_right (a := 2) (by norm_num)).1 h2
      omega
    simp only [if_neg h0, List.map_cons, List.cons_append, decodeU32Loop,
      hor127, if_neg hflag]
    rw [if_neg (by omega : ¬ (shift + 7 > 32))]
    have hlor : res ||| (num &&& 127) <<< shift = 2^shift * (num &&& 127) + res :=
      lor_shiftLeft _ _ _ hres
    have hbound : 2^shift * (num &&& 127) + res < 2^(shift + 7) := by
      rw [two_pow_add_seven]
      have h2 : 2^shift * ((num &&& 127) + 1) ≤ 2^shift * 128 :=
        Nat.mul_le_mul_left _ (by omega)
      rw [Nat.mul_add, Nat.mul_one] at h2
      omega
    have hb32 : 2^shift * (num &&& 127) + res < 2^32 :=
      Nat.lt_of_lt_of_le hbound (Nat.pow_le_pow_right (by norm_num) hsle)
    rw [hlor, Nat.mod_eq_of_lt hb32]
    have hrec := ih (num >>> 7)
      (by
        rw [Nat.shiftRight_eq_div_pow]
        norm_num
        exact Nat.div_lt_self (by omega) (by norm_num))
      (2^shift * (num &&& 127) + res) (shift + 7) rest
      (by omega)
      (by omega)
      hbound
      (by
        rw [two_pow_add_seven, Nat.shiftRight_eq_div_pow]
        norm_num
        calc 2^shift * 128 * (num / 128) = 2^shift * (128 * (num / 128)) := by ring
        _ ≤ 2^shift * num := Nat.mul_le_mul_left _ (Nat.mul_div_le num 128)
        _ < 2^32 := hnum)
      (Or.inr h0)
    rw [hrec]
    have hsplit : (num &&& 127) + 128 * (num >>> 7) = num := by
      rw [and127_eq_mod, Nat.shiftRight_eq_div_pow]
      norm_num
      omega
    have : 2^shift * (num &&& 127) + res + 2^(shift+7) * (num >>> 7)
        = res + 2^shift * num := by
      rw [two_pow_add_seven]
      calc 2^shift * (num &&& 127) + res + 2^shift * 128 * (num >>> 7)
          = res + 2^shift * ((num &&& 127) + 128 * (num >>> 7)) := by ring
      _ = res + 2^shift * num := by rw [hsplit]
    rw [this]

/-- C4: for every uint32 value `v`, `DecodeU32` reading from a source that
supplies exactly the bytes `EncodeU32 v` succeeds and returns `v` (consuming
the whole source). -/
theorem c4_decodeU32_roundtrip (v : Nat) (hv : v < 2^32) :
    DecodeU32 (List.map ReadResult.byte (EncodeU32 v)) = (Except.ok v, []) := by
  have h := decodeU32Loop_encode v 0 0 [] ⟨0, rfl⟩ (by norm_num) (by norm_num)
    (by simpa using hv) (Or.inl rfl)
  simpa [DecodeU32] using h

/-- Witness for C4 at the concrete value 300. -/
theorem c4_decodeU32_roundtrip_witness :
    (300 : Nat) < 2^32 ∧
    DecodeU32 (List.map ReadResult.byte (EncodeU32 300)) = (Except.ok 300, []) :=
  ⟨by norm_num, c4_decodeU32_roundtrip 300 (by norm_num)⟩

/-- Generalized round-trip invariant for `DecodeU64`, as for `DecodeU32` but
with the 64-bit thresholds. -/
theorem decodeU64Loop_encode (num : Nat) : ∀ (res shift : Nat) (rest : List ReadResult),
    7 ∣ shift → shift ≤ 63 → res < 2^shift →
    2^shift * num < 2^64 → (shift = 0 ∨ num ≠ 0) →
    decodeU64Loop (List.map ReadResult.byte (EncodeU64 num) ++ rest) res shift
      = (Except.ok (res + 2^shift * num), rest) := by
  induction num using Nat.strong_induction_on with
  | _ num ih =>
  intro res shift rest h7 hsh hres hnum hnz
  rw [EncodeU64]
  by_cases h0 : num >>> 7 = 0
  · have hlt : num < 128 := by
      have h0' := h0
      rw [Nat.shiftRight_eq_div_pow] at h0'
      norm_num at h0'
      omega
    have hand : num &&& 127 = num := by rw [and127_eq_mod]; omega
    have h128 : num &&& 128 = 0 := (byteFacts num hlt).1
    simp only [if_pos h0, List.map_cons, List.map_nil, List.nil_append,
      List.cons_append, decodeU64Loop, hand, if_pos h128]
    have hib : ¬ (shift + 7 > 64 ∧ num > 1) := by
      rintro ⟨hgt, hnum1⟩
      have hs63 : shift = 63 := by omega
      subst hs63
      norm_num at hnum
      omega
    have hib2 : ¬ (shift + 7 > 7 ∧ num = 0) := by
      rintro ⟨hgt, rfl⟩
      rcases hnz with h | h
      · omega
      · exact h rfl
    rw [if_neg hib, if_neg hib2]
    have hlor : res ||| num <<< shift = 2^shift * num + res := lor_shiftLeft _ _ _ hres
    have hbound : 2^shift * num + res < 2^64 := by
      by_cases hc : shift + 7 ≤ 64
      · have h1 : 2^shift * num + res < 2^(shift+7) := by
          rw [two_pow_add_seven]
          have h2 : 2^shift * (num + 1) ≤ 2^shift * 128 :=
            Nat.mul_le_mul_left _ (by omega)
          rw [Nat.mul_add, Nat.mul_one] at h2
          omega
        exact Nat.lt_of_lt_of_le h1 (Nat.pow_le_pow_right (by norm_num) hc)
      · have hs63 : shift = 63 := by omega
        subst hs63
        have h1 : num ≤ 1 := by
          by_contra hgt
          exact hib ⟨by omega, by omega⟩
        norm_num at hres ⊢
        omega
    rw [hlor, Nat.mod_eq_of_lt hbound]
    rw [Nat.add_comm]
  · have hge : 128 ≤ num := by
      rw [Nat.shiftRight_eq_div_pow] at h0
      norm_num at h0
      omega
    have hlow : num &&& 127 < 128 := by rw [and127_eq_mod]; omega
    obtain ⟨-, hor, hflag, hor127, -⟩ := byteFacts _ hlow
    have hsle : shift + 7 ≤ 64 := by
      have h1 : 2^(shift+7) ≤ 2^shift * num := by
        rw [two_pow_add_seven]
        exact Nat.mul_le_mul_left _ hge
      have h2 : 2^(shift+7) < 2^64 := by omega
      have := (Nat.pow_lt_pow_iff_right (a := 2) (by norm_num)).1 h2
      omega
    simp only [if_neg h0, List.map_cons, List.cons_append, decodeU64Loop,
      hor127, if_neg hflag]
    rw [if_neg (by omega : ¬ (shift + 7 > 64))]
    have hlor : res ||| (num &&& 127) <<< shift = 2^shift * (num &&& 127) + res :=
      lor_shiftLeft _ _ _ hres
    have hbound : 2^shift * (num &&& 127) + res < 2^(shift + 7) := by
      rw [two_pow_add_seven]
      have h2 : 2^shift * ((num &&& 127) + 1) ≤ 2^shift * 128 :=
        Nat.mul_le_mul_left _ (by omega)
      rw [Nat.mul_add, Nat.mul_one] at h2
      omega
    have hb64 : 2^shift * (num &&& 127) + res < 2^64 :=
      Nat.lt_of_lt_of_le hbound (Nat.pow_le_pow_right (by norm_num) hsle)
    rw [hlor, Nat.mod_eq_of_lt hb64]
    have hrec := ih (num >>> 7)
      (by
        rw [Nat.shiftRight_eq_div_pow]
        norm_num
        exact Nat.div_lt_self (by omega) (by norm_num))
      (2^shift * (num &&& 127) + res) (shift + 7) rest
      (by omega)
      (by omega)
      hbound
      (by
        rw [two_pow_add_seven, Nat.shiftRight_eq_div_pow]
        norm_num
        calc 2^shift * 128 * (num / 128) = 2^shift * (128 * (num / 128)) := by ring
        _ ≤ 2^shift * num := Nat.mul_le_mul_left _ (Nat.mul_div_le num 128)
        _ < 2^64 := hnum)
      (Or.inr h0)
    rw [hrec]
    have hsplit : (num &&& 127) + 128 * (num >>> 7) = num := by
      rw [and127_eq_mod, Nat.shiftRight_eq_div_pow]
      norm_num
      omega
    have heq : 2^shift * (num &&& 127) + res + 2^(shift+7) * (num >>> 7)
        = res + 2^shift * num := by
      rw [two_pow_add_seven]
      calc 2^shift * (num &&& 127) + res + 2^shift * 128 * (num >>> 7)
          = res + 2^shift * ((num &&& 127) + 128 * (num >>> 7)) := by ring
      _ = res + 2^shift * num := by rw [hsplit]
    rw [heq]

/-- C3: for every uint64 value `v` (including values at and above `2^63`,
whose encodings are 10 bytes long), `DecodeU64` reading from a source that
supplies exactly the bytes `EncodeU64 v` succeeds and returns `v`. -/
theorem c3_decodeU64_roundtrip (v : Nat) (hv : v < 2^64) :
    DecodeU64 (List.map ReadResult.byte (EncodeU64 v)) = (Except.ok v, []) := by
  have h := decodeU64Loop_encode v 0 0 [] ⟨0, rfl⟩ (by norm_num) (by norm_num)
    (by simpa using hv) (Or.inl rfl)
  simpa [DecodeU64] using h

/-- Witness for C3 at the concrete value `2^64 - 1` (a 10-byte encoding whose
final byte is 1). -/
theorem c3_decodeU64_roundtrip_witness :
    2^64 - 1 < 2^64 ∧
    DecodeU64 (List.map ReadResult.byte (EncodeU64 (2^64 - 1))) = (Except.ok (2^64 - 1), []) :=
  ⟨by norm_num, c3_decodeU64_roundtrip (2^64 - 1) (by norm_num)⟩

/-- Euclidean remainder by `128 * 2^s` splits into the low 7 bits and the
remainder of the quotient. -/
theorem emod_128_two_pow (n : Int) (s : Nat) :
    n % (128 * 2^s) = n % 128 + 128 * (n / 128 % 2^s) := by
  have hpos : (0:Int) < 128 * 2^s := by positivity
  have hq : 128 * 2^s * (n / (128 * 2^s)) + n % (128 * 2^s) = n :=
    Int.ediv_add_emod n (128 * 2^s)
  have hr0 : 0 ≤ n % (128 * 2^s) := Int.emod_nonneg n (by positivity)
  have hrlt : n % (128 * 2^s) < 128 * 2^s := Int.emod_lt_of_pos n hpos
  have hdvd : n % (128 * 2^s) % 128 = n % 128 :=
    Int.emod_emod_of_dvd n ⟨2^s, rfl⟩
  have hdiv : n / 128 = n % (128 * 2^s) / 128 + 2^s * (n / (128 * 2^s)) := by
    conv_lhs => rw [← hq]
    rw [show (128:Int) * 2^s * (n / (128 * 2^s)) + n % (128 * 2^s)
        = n % (128 * 2^s) + 128 * (2^s * (n / (128 * 2^s))) by ring]
    rw [Int.add_mul_ediv_left _ _ (by norm_num : (128:Int) ≠ 0)]
  have hrdiv0 : 0 ≤ n % (128 * 2^s) / 128 :=
    Int.ediv_nonneg hr0 (by norm_num)
  have hrdivlt : n % (128 * 2^s) / 128 < 2^s := by
    rw [Int.ediv_lt_iff_lt_mul (by norm_num : (0:Int) < 128)]
    calc n % (128 * 2^s) < 128 * 2^s := hrlt
    _ = 2^s * 128 := by ring
  have hmod : n / 128 % 2^s = n % (128 * 2^s) / 128 := by
    rw [hdiv, Int.add_mul_emod_self_left, Int.emod_eq_of_lt hrdiv0 hrdivlt]
  have hfin := Int.ediv_add_emod (n % (128 * 2^s)) 128
  rw [hmod, ← hdvd]
  omega

/-- If the `EncodeS64` loop continues, the absolute value of the shifted
number strictly decreases. -/
theorem encodeS64_decrease (num : Int)
    (h : ¬((Int.fdiv num 128 = 0 ∧ (Int.emod num 128).toNat &&& 64 = 0) ∨
           (Int.fdiv num 128 = -1 ∧ (Int.emod num 128).toNat &&& 64 ≠ 0))) :
    (Int.fdiv num 128).natAbs < num.natAbs := by
  have h0 : num ≠ 0 := by rintro rfl; exact h (Or.inl ⟨by decide, by decide⟩)
  have h1 : num ≠ -1 := by rintro rfl; exact h (Or.inr ⟨by decide, by decide⟩)
  rw [Int.fdiv_eq_ediv _ (by norm_num)]
  omega

/-- Terminal step of the signed round-trip: if the `EncodeS64` stop condition
holds for the remaining value `num`, decoding its single encoded byte
finishes with the accumulated bits of the original value. -/
theorem decodeS64Loop_encode_term (num : Int) (res shift prev : Nat)
    (rest : List ReadResult)
    (hdone : (Int.fdiv num 128 = 0 ∧ (Int.emod num 128).toNat &&& 64 = 0) ∨
             (Int.fdiv num 128 = -1 ∧ (Int.emod num 128).toNat &&& 64 ≠ 0))
    (h7 : 7 ∣ shift) (hsh : shift ≤ 63) (hres : res < 2^shift)
    (hlo : -(2:Int)^(63-shift) ≤ num) (hhi : num < 2^(63-shift))
    (hprev : shift = 0 ∨ ¬((num = 0 ∧ prev &&& 64 = 0) ∨ (num = -1 ∧ prev &&& 64 ≠ 0))) :
    decodeS64Loop (List.map ReadResult.byte (EncodeS64 num) ++ rest) res shift prev
      = (Except.ok (toInt64 (res + 2^shift * ((num % 2^(64-shift)).toNat))), rest) := by
  have hconv : Int.fdiv num 128 = num / 128 := Int.fdiv_eq_ediv _ (by norm_num)
  rw [hconv] at hdone
  set b := (Int.emod num 128).toNat with hbdef
  have hbmod : (Int.emod num 128) = num % 128 := rfl
  have hm0 : 0 ≤ num % 128 := Int.emod_nonneg num (by norm_num)
  have hmlt : num % 128 < 128 := Int.emod_lt_of_pos num (by norm_num)
  have hblt : b < 128 := by rw [hbdef, hbmod]; omega
  have hbnum : (b : Int) = num % 128 := by rw [hbdef, hbmod]; omega
  -- resolve the two stop-condition cases into arithmetic facts
  have hcase : (0 ≤ num ∧ num < 64 ∧ (num:Int) = (b:Int) ∧ b &&& 64 = 0) ∨
      (-64 ≤ num ∧ num < 0 ∧ num = (b:Int) - 128 ∧ b &&& 64 ≠ 0) := by
    rcases hdone with ⟨hd, hs⟩ | ⟨hd, hs⟩
    · left
      have hx : 0 ≤ num ∧ num < 128 := by omega
      have hb64 : b < 64 := (and64_iff b hblt).1 hs
      refine ⟨hx.1, by omega, by omega, hs⟩
    · right
      have hx : -128 ≤ num ∧ num < 0 := by omega
      have hb64 : 64 ≤ b := by
        by_contra hc
        exact hs ((and64_iff b hblt).2 (by omega))
      refine ⟨by omega, hx.2, by omega, hs⟩
  rw [EncodeS64, hconv, ← hbdef, if_pos hdone]
  simp only [List.map_cons, List.map_nil, List.nil_append, List.cons_append,
    decodeS64Loop]
  have hband : b &&& 127 = b := by rw [and127_eq_mod]; omega
  have hb128 : b &&& 128 = 0 := (byteFacts b hblt).1
  rw [hband, if_pos hb128]
  have hc1 : ¬ (shift + 7 > 64 ∧ b ≠ 0 ∧ b ≠ 127) := by
    rintro ⟨hgt, hb0, hb127⟩
    have hs63 : shift = 63 := by omega
    subst hs63
    norm_num at hlo hhi
    rcases hcase with ⟨h1, h2, h3, -⟩ | ⟨h1, h2, h3, -⟩
    · exact hb0 (by omega)
    · exact hb127 (by omega)
  rw [if_neg hc1]
  have hc2 : ¬ (shift + 7 > 7 ∧
      ((b = 0 ∧ prev &&& 64 = 0) ∨ (b = 127 ∧ prev &&& 64 > 0))) := by
    rintro ⟨hgt, hor⟩
    have hpr : ¬((num = 0 ∧ prev &&& 64 = 0) ∨ (num = -1 ∧ prev &&& 64 ≠ 0)) := by
      rcases hprev with h | h
      · omega
      · exact h
    rcases hor with ⟨hb0, hp⟩ | ⟨hb127, hp⟩
    · rcases hcase with ⟨-, -, h3, -⟩ | ⟨-, -, -, hs⟩
      · exact hpr (Or.inl ⟨by omega, hp⟩)
      · rw [hb0] at hs; exact hs (by decide)
    · rcases hcase with ⟨-, h2, -, -⟩ | ⟨-, -, h3, -⟩
      · omega
      · exact hpr (Or.inr ⟨by omega, by omega⟩)
  rw [if_neg hc2]
  rcases hcase with ⟨h1, h2, h3, hs⟩ | ⟨h1, h2, h3, hs⟩
  · -- nonnegative value: no sign extension
    have hc3 : ¬ (shift + 7 < 64 ∧ b &&& 64 > 0) := by
      rintro ⟨-, hp⟩
      omega
    rw [if_neg hc3]
    -- value below 2^(63-shift), so bits stay inside 64
    have hbn : b < 2^(63-shift) := by
      have := hhi
      rw [h3] at this
      exact_mod_cast this
    have hp63 : (2:Nat)^shift * 2^(63-shift) = 2^63 := by
      rw [← pow_add]
      congr 1
      omega
    have hbound : res + 2^shift * b < 2^64 := by
      have hstep : res + 2^shift * b < 2^shift * (b + 1) := by
        rw [Nat.mul_add, Nat.mul_one]
        omega
      have hb1 : 2^shift * (b + 1) ≤ 2^shift * 2^(63-shift) :=
        Nat.mul_le_mul_left _ (by omega)
      have : (2:Nat)^63 < 2^64 := by norm_num
      omega
    have hlor : res ||| b <<< shift = 2^shift * b + res := lor_shiftLeft _ _ _ hres
    rw [hlor, Nat.mod_eq_of_lt (by omega)]
    have hmodv : num % 2^(64-shift) = (b : Int) := by
      rw [← h3]
      refine Int.emod_eq_of_lt h1 ?_
      have hle : (2:Int)^(63-shift) ≤ 2^(64-shift) := by
        refine pow_le_pow_right (by norm_num) ?_
        omega
      omega
    rw [hmodv]
    have hback : ((b:Int)).toNat = b := by omega
    rw [hback, Nat.add_comm]
    rfl
  · -- negative value: bit 6 of the final byte is set
    have hb64 : 64 ≤ b := by
      by_contra hc
      exact hs ((and64_iff b hblt).2 (by omega))
    have hsplit : shift ≤ 56 ∨ shift = 63 := by omega
    rcases hsplit with hs56 | hs63
    · -- sign extension performed by the decoder
      have hc3 : shift + 7 < 64 ∧ b &&& 64 > 0 := ⟨by omega, by omega⟩
      rw [if_pos hc3]
      have hlor : res ||| b <<< shift = 2^shift * b + res := lor_shiftLeft _ _ _ hres
      have hbound : 2^shift * b + res < 2^(shift+7) := by
        rw [two_pow_add_seven]
        have h2 : 2^shift * (b + 1) ≤ 2^shift * 128 :=
          Nat.mul_le_mul_left _ (by omega)
        rw [Nat.mul_add, Nat.mul_one] at h2
        omega
      have hb64' : 2^shift * b + res < 2^64 := by
        have : (2:Nat)^(shift+7) ≤ 2^64 :=
          Nat.pow_le_pow_right (by norm_num) (by omega)
        omega
      rw [hlor, Nat.mod_eq_of_lt hb64']
      -- rewrite the sign-extension mask as a shifted block
      have hmask : (2:Nat)^64 - 2^(shift+7) = (2^(57-shift) - 1) <<< (shift + 7) := by
        rw [Nat.shiftLeft_eq]
        have h1 : (2:Nat)^(57-shift) * 2^(shift+7) = 2^64 := by
          rw [← pow_add]
          congr 1
          omega
        have h2 : (1:Nat) ≤ 2^(57-shift) := Nat.one_le_two_pow
        calc (2:Nat)^64 - 2^(shift+7) = 2^(57-shift) * 2^(shift+7) - 1 * 2^(shift+7) := by
              rw [h1, Nat.one_mul]
        _ = (2^(57-shift) - 1) * 2^(shift+7) := by rw [Nat.sub_mul]
      rw [hmask, lor_shiftLeft _ _ _ hbound]
      -- now compute the value of the remainder
      have hM256 : (256:Int) ≤ 2^(64-shift) := by
        calc (256:Int) = 2^8 := by norm_num
        _ ≤ 2^(64-shift) := pow_le_pow_right (by norm_num) (by omega)
      have hmodv : num % 2^(64-shift) = num + 2^(64-shift) := by
        have h4 : (num + 2^(64-shift) * 1) % 2^(64-shift) = num % 2^(64-shift) :=
          Int.add_mul_emod_self_left num (2^(64-shift)) 1
        rw [mul_one] at h4
        rw [← h4]
        exact Int.emod_eq_of_lt (by omega) (by omega)
      have hMcast : ((2^(64-shift) : Nat) : Int) = (2:Int)^(64-shift) := by
        push_cast
        ring
      have hval : (num % 2^(64-shift)).toNat = b + 2^(64-shift) - 128 := by
        rw [hmodv, h3]
        omega
      rw [hval]
      have e1 : (2:Nat)^(shift+7) * 2^(57-shift) = 2^64 := by
        rw [← pow_add]
        congr 1
        omega
      have e2 : (2:Nat)^shift * 2^(64-shift) = 2^64 := by
        rw [← pow_add]
        congr 1
        omega
      have e3 : (2:Nat)^(shift+7) = 2^shift * 128 := two_pow_add_seven shift
      have hM256n : (256:Nat) ≤ 2^(64-shift) := by
        calc (256:Nat) = 2^8 := by norm_num
        _ ≤ 2^(64-shift) := Nat.pow_le_pow_right (by norm_num) (by omega)
      have hbits : 2^(shift+7) * (2^(57-shift) - 1) + (2^shift * b + res)
          = res + 2^shift * (b + 2^(64-shift) - 128) := by
        have hsub1 : (1:Nat) ≤ 2^(57-shift) := Nat.one_le_two_pow
        have hsub2 : (128:Nat) ≤ b + 2^(64-shift) := by omega
        zify [hsub1, hsub2] at e1 e2 e3 ⊢
        linear_combination e1 - e2 - e3
      rw [hbits]
      rfl
    · -- the 10th byte: only the sign bit remains
      subst hs63
      norm_num at hlo hhi
      have hnum1 : num = -1 := by omega
      have hb127 : b = 127 := by omega
      have hc3 : ¬ (63 + 7 < 64 ∧ b &&& 64 > 0) := by
        rintro ⟨hlt, -⟩
        omega
      rw [if_neg hc3, hb127, hnum1]
      have hlor : res ||| 127 <<< 63 = 2^63 * 127 + res := lor_shiftLeft _ _ _ hres
      rw [hlor]
      have hmod64 : (2^63 * 127 + res) % 2^64 = res + 2^63 := by omega
      rw [hmod64]
      have hv : (((-1:Int)) % 2^(64-63)).toNat = 1 := by decide
      rw [hv, Nat.mul_one]
      rfl

/-- Generalized round-trip invariant for `DecodeS64`: decoding the encoding
of the remaining (signed) value `num` from accumulator `res`, shift counter
`shift` and previous byte `prev` succeeds with the accumulated two's
complement bits. -/
theorem decodeS64Loop_encode : ∀ (k : Nat) (num : Int) (res shift prev : Nat)
    (rest : List ReadResult),
    num.natAbs ≤ k →
    7 ∣ shift → shift ≤ 63 → res < 2^shift →
    -(2:Int)^(63-shift) ≤ num → num < 2^(63-shift) →
    (shift = 0 ∨ ¬((num = 0 ∧ prev &&& 64 = 0) ∨ (num = -1 ∧ prev &&& 64 ≠ 0))) →
    decodeS64Loop (List.map ReadResult.byte (EncodeS64 num) ++ rest) res shift prev
      = (Except.ok (toInt64 (res + 2^shift * ((num % 2^(64-shift)).toNat))), rest) := by
  intro k
  induction k with
  | zero =>
    intro num res shift prev rest hk h7 hsh hres hlo hhi hprev
    have h0 : num = 0 := by omega
    subst h0
    exact decodeS64Loop_encode_term 0 res shift prev rest
      (Or.inl ⟨by decide, by decide⟩) h7 hsh hres hlo hhi hprev
  | succ k ih =>
    intro num res shift prev rest hk h7 hsh hres hlo hhi hprev
    by_cases hdone : (Int.fdiv num 128 = 0 ∧ (Int.emod num 128).toNat &&& 64 = 0) ∨
        (Int.fdiv num 128 = -1 ∧ (Int.emod num 128).toNat &&& 64 ≠ 0)
    · exact decodeS64Loop_encode_term num res shift prev rest hdone h7 hsh hres hlo hhi hprev
    · -- continuation byte
      have hconv : Int.fdiv num 128 = num / 128 := Int.fdiv_eq_ediv _ (by norm_num)
      set b := (Int.emod num 128).toNat with hbdef
      have hbmod : (Int.emod num 128) = num % 128 := rfl
      have hm0 : 0 ≤ num % 128 := Int.emod_nonneg num (by norm_num)
      have hmlt : num % 128 < 128 := Int.emod_lt_of_pos num (by norm_num)
      have hblt : b < 128 := by rw [hbdef, hbmod]; omega
      have hbn : (b : Int) = num % 128 := by rw [hbdef, hbmod]; omega
      -- shift is at most 56 here, otherwise the loop would already stop
      have hs56 : shift ≤ 56 := by
        by_contra hgt
        have h63 : shift = 63 := by omega
        subst h63
        norm_num at hlo hhi
        have hn01 : num = 0 ∨ num = -1 := by omega
        rcases hn01 with rfl | rfl
        · exact hdone (Or.inl ⟨by decide, by decide⟩)
        · exact hdone (Or.inr ⟨by decide, by decide⟩)
      obtain ⟨-, hor, hflag, hor127, hor64⟩ := byteFacts b hblt
      rw [EncodeS64, ← hbdef, if_neg hdone]
      simp only [List.map_cons, List.cons_append, decodeS64Loop]
      rw [hor127, if_neg hflag]
      rw [if_neg (by omega : ¬ (shift + 7 > 64))]
      have hlor : res ||| b <<< shift = 2^shift * b + res := lor_shiftLeft _ _ _ hres
      have hbound : 2^shift * b + res < 2^(shift+7) := by
        rw [two_pow_add_seven]
        have h2 : 2^shift * (b + 1) ≤ 2^shift * 128 := Nat.mul_le_mul_left _ (by omega)
        rw [Nat.mul_add, Nat.mul_one] at h2
        omega
      have hb64' : 2^shift * b + res < 2^64 := by
        have hp : (2:Nat)^(shift+7) ≤ 2^64 := Nat.pow_le_pow_right (by norm_num) (by omega)
        omega
      rw [hlor, Nat.mod_eq_of_lt hb64']
      have hdec : (Int.fdiv num 128).natAbs < num.natAbs := encodeS64_decrease num hdone
      have hklt : (num / 128).natAbs ≤ k := by rw [← hconv]; omega
      have hpow : (2:Int)^(56-shift) * 128 = 2^(63-shift) := by
        rw [show (128:Int) = 2^7 by norm_num, ← pow_add]
        congr 1
        omega
      have hq_lo : -(2:Int)^(63-(shift+7)) ≤ num / 128 := by
        have hrw : (63:Nat) - (shift + 7) = 56 - shift := by omega
        rw [hrw, Int.le_ediv_iff_mul_le (by norm_num : (0:Int) < 128)]
        calc -(2:Int)^(56-shift) * 128 = -(2^(56-shift) * 128) := by ring
        _ = -(2:Int)^(63-shift) := by rw [hpow]
        _ ≤ num := hlo
      have hq_hi : num / 128 < 2^(63-(shift+7)) := by
        have hrw : (63:Nat) - (shift + 7) = 56 - shift := by omega
        rw [hrw, Int.ediv_lt_iff_lt_mul (by norm_num : (0:Int) < 128), hpow]
        exact hhi
      have hprev' : shift + 7 = 0 ∨
          ¬((num / 128 = 0 ∧ (b ||| 128) &&& 64 = 0) ∨
            (num / 128 = -1 ∧ (b ||| 128) &&& 64 ≠ 0)) := by
        right
        rw [hor64, ← hconv]
        exact hdone
      have hrec := ih (num / 128) (2^shift * b + res) (shift + 7) (b ||| 128) rest
        hklt (by omega) (by omega) hbound hq_lo hq_hi hprev'
      rw [hconv]
      have hexp : (64:Nat) - (shift + 7) = 57 - shift := by omega
      have hval : res + 2^shift * ((num % 2^(64-shift)).toNat)
          = 2^shift * b + res + 2^(shift+7) * ((num / 128 % 2^(64-(shift+7))).toNat) := by
        have hsplit64 : (2:Int)^(64-shift) = 128 * 2^(57-shift) := by
          rw [show (128:Int) = 2^7 by norm_num, ← pow_add]
          congr 1
          omega
        have hdecomp : num % 2^(64-shift) = num % 128 + 128 * (num / 128 % 2^(57-shift)) := by
          rw [hsplit64, emod_128_two_pow]
        have hy0 : 0 ≤ num / 128 % 2^(57-shift) := Int.emod_nonneg _ (by positivity)
        have htn : (num % 2^(64-shift)).toNat
            = b + 128 * ((num / 128 % 2^(57-shift)).toNat) := by
          rw [hdecomp]
          omega
        rw [hexp, htn, two_pow_add_seven]
        ring
      rw [hval]
      exact hrec

/-- C2: for every int64 value `v`, `DecodeS64` reading from a source that
supplies exactly the bytes `EncodeS64 v` succeeds and returns `v`. -/
theorem c2_decodeS64_roundtrip (v : Int) (hlo : -2^63 ≤ v) (hhi : v < 2^63) :
    DecodeS64 (List.map ReadResult.byte (EncodeS64 v)) = (Except.ok v, []) := by
  have hto : toInt64 ((v % 2^64).toNat) = v := by
    unfold toInt64
    split <;> omega
  have h := decodeS64Loop_encode v.natAbs v 0 0 0 [] le_rfl ⟨0, rfl⟩ (by norm_num)
    (by norm_num) (by simpa using hlo) (by simpa using hhi) (Or.inl rfl)
  rw [List.append_nil] at h
  have hsimp : (0:Nat) + 2^0 * ((v % 2^(64-0)).toNat) = (v % 2^64).toNat := by
    norm_num
  rw [hsimp, hto] at h
  exact h

/-- Witness for C2 at the concrete value -64. -/
theorem c2_decodeS64_roundtrip_witness :
    (-(2:Int)^63 ≤ -64 ∧ (-64:Int) < 2^63) ∧
    DecodeS64 (List.map ReadResult.byte (EncodeS64 (-64))) = (Except.ok (-64), []) :=
  ⟨⟨by norm_num, by norm_num⟩, c2_decodeS64_roundtrip (-64) (by norm_num) (by norm_num)⟩

/-! ### Soundness: a successful decode consumed exactly a minimal encoding -/

/-- If the `DecodeU32` loop succeeds from state `(res, shift)`, the bytes it
consumed are exactly the encoding of the remaining value. -/
theorem decodeU32Loop_sound : ∀ (src : List ReadResult) (res shift v : Nat)
    (rest : List ReadResult),
    SrcBytes src → 7 ∣ shift → shift ≤ 28 → res < 2^shift →
    decodeU32Loop src res shift = (Except.ok v, rest) →
    ∃ m : Nat, src = List.map ReadResult.byte (EncodeU32 m) ++ rest ∧
      v = res + 2^shift * m ∧ 2^shift * m < 2^32 ∧ (shift = 0 ∨ m ≠ 0) := by
  intro src
  induction src with
  | nil =>
    intro res shift v rest hsb h7 hsh hres hdec
    simp [decodeU32Loop] at hdec
  | cons r t ih =>
    intro res shift v rest hsb h7 hsh hres hdec
    have hsbt : SrcBytes t := fun c hc => hsb c (List.mem_cons_of_mem _ hc)
    cases r with
    | eof => simp [decodeU32Loop] at hdec
    | fail e => simp [decodeU32Loop] at hdec
    | byte b =>
      have hb : b < 256 := hsb b (List.mem_cons_self _ _)
      simp only [decodeU32Loop] at hdec
      by_cases hflag : b &&& 128 = 0
      · -- final byte
        have hblt : b < 128 := (byteSplit b hb).1 hflag
        rw [if_pos hflag] at hdec
        by_cases h1 : shift + 7 > 32 ∧ b > 15
        · rw [if_pos h1] at hdec; simp at hdec
        rw [if_neg h1] at hdec
        by_cases h2 : shift + 7 > 7 ∧ b = 0
        · rw [if_pos h2] at hdec; simp at hdec
        rw [if_neg h2] at hdec
        simp only [Prod.mk.injEq, Except.ok.injEq] at hdec
        obtain ⟨hv, hrest⟩ := hdec
        have hband : b &&& 127 = b := by rw [and127_eq_mod]; omega
        have hlor : res ||| b <<< shift = 2^shift * b + res := lor_shiftLeft _ _ _ hres
        have hbound : 2^shift * b + res < 2^32 := by
          by_cases hc : shift + 7 ≤ 32
          · have h1b : 2^shift * b + res < 2^(shift+7) := by
              rw [two_pow_add_seven]
              have h2b : 2^shift * (b + 1) ≤ 2^shift * 128 :=
                Nat.mul_le_mul_left _ (by omega)
              rw [Nat.mul_add, Nat.mul_one] at h2b
              omega
            exact Nat.lt_of_lt_of_le h1b (Nat.pow_le_pow_right (by norm_num) hc)
          · have hs28 : shift = 28 := by omega
            subst hs28
            have h15 : b ≤ 15 := by
              by_contra hgt
              exact h1 ⟨by omega, by omega⟩
            norm_num at hres ⊢
            omega
        refine ⟨b, ?_, ?_, by omega, by omega⟩
        · rw [EncodeU32]
          rw [if_pos (by rw [Nat.shiftRight_eq_div_pow]; norm_num; omega), hband]
          rw [hrest]
          rfl
        · rw [← hv, hband, hlor, Nat.mod_eq_of_lt hbound, Nat.add_comm]
      · -- continuation byte
        obtain ⟨hge, hband, -⟩ := (byteSplit b hb).2 hflag
        rw [if_neg hflag] at hdec
        by_cases hov : shift + 7 > 32
        · rw [if_pos hov] at hdec; simp at hdec
        rw [if_neg hov] at hdec
        have hlow : b - 128 < 128 := by omega
        have hlor : res ||| (b &&& 127) <<< shift = 2^shift * (b - 128) + res := by
          rw [hband]
          exact lor_shiftLeft _ _ _ hres
        have hbound : 2^shift * (b - 128) + res < 2^(shift+7) := by
          rw [two_pow_add_seven]
          have h2b : 2^shift * ((b - 128) + 1) ≤ 2^shift * 128 :=
            Nat.mul_le_mul_left _ (by omega)
          rw [Nat.mul_add, Nat.mul_one] at h2b
          omega
        have hb32 : 2^shift * (b - 128) + res < 2^32 :=
          Nat.lt_of_lt_of_le hbound (Nat.pow_le_pow_right (by norm_num) (by omega))
        rw [hlor, Nat.mod_eq_of_lt hb32] at hdec
        obtain ⟨m', hsrc', hv', hbound', hnz'⟩ :=
          ih (2^shift * (b - 128) + res) (shift + 7) v rest hsbt
            (by omega) (by omega) hbound hdec
        have hm'nz : m' ≠ 0 := by
          rcases hnz' with h | h
          · omega
          · exact h
        refine ⟨(b - 128) + 128 * m', ?_, ?_, ?_, by omega⟩
        · rw [EncodeU32]
          have hmod : ((b - 128) + 128 * m') &&& 127 = b - 128 := by
            rw [and127_eq_mod]
            omega
          have hdiv : ((b - 128) + 128 * m') >>> 7 = m' := by
            rw [Nat.shiftRight_eq_div_pow]
            norm_num
            omega
          rw [hdiv, if_neg hm'nz, hmod]
          have hor : (b - 128) ||| 128 = b := by
            have := (byteFacts (b - 128) hlow).2.1
            omega
          rw [hor, hsrc']
          rfl
        · rw [hv']
          have he3 : (2:Nat)^(shift+7) = 2^shift * 128 := two_pow_add_seven shift
          calc 2^shift * (b - 128) + res + 2^(shift+7) * m'
              = res + (2^shift * (b - 128) + 2^shift * (128 * m')) := by rw [he3]; ring
          _ = res + 2^shift * ((b - 128) + 128 * m') := by rw [← Nat.mul_add]
        · have he2 : (2:Nat)^(shift+7) * 2^(25-shift) = 2^32 := by
            rw [← pow_add]
            congr 1
            omega
          have hm'lt : m' < 2^(25-shift) := by
            by_contra hge'
            have : 2^(shift+7) * 2^(25-shift) ≤ 2^(shift+7) * m' :=
              Nat.mul_le_mul_left _ (by omega)
            omega
          have hstep : 2^shift * ((b - 128) + 128 * m') <
              2^(shift+7) * (m' + 1) := by
            rw [two_pow_add_seven]
            calc 2^shift * ((b - 128) + 128 * m')
                = 2^shift * (b - 128) + 2^shift * 128 * m' := by ring
            _ < 2^shift * 128 + 2^shift * 128 * m' := by
                have : 2^shift * (b - 128) < 2^shift * 128 :=
                  (Nat.mul_lt_mul_left (Nat.two_pow_pos shift)).2 (by omega)
                omega
            _ = 2^shift * 128 * (m' + 1) := by ring
          have hfin : 2^(shift+7) * (m' + 1) ≤ 2^32 := by
            calc 2^(shift+7) * (m' + 1) ≤ 2^(shift+7) * 2^(25-shift) :=
                  Nat.mul_le_mul_left _ (by omega)
            _ = 2^32 := he2
          omega

/-- If the `DecodeU64` loop succeeds from state `(res, shift)`, the bytes it
consumed are exactly the encoding of the remaining value. -/
theorem decodeU64Loop_sound : ∀ (src : List ReadResult) (res shift v : Nat)
    (rest : List ReadResult),
    SrcBytes src → 7 ∣ shift → shift ≤ 63 → res < 2^shift →
    decodeU64Loop src res shift = (Except.ok v, rest) →
    ∃ m : Nat, src = List.map ReadResult.byte (EncodeU64 m) ++ rest ∧
      v = res + 2^shift * m ∧ 2^shift * m < 2^64 ∧ (shift = 0 ∨ m ≠ 0) := by
  intro src
  induction src with
  | nil =>
    intro res shift v rest hsb h7 hsh hres hdec
    simp [decodeU64Loop] at hdec
  | cons r t ih =>
    intro res shift v rest hsb h7 hsh hres hdec
    have hsbt : SrcBytes t := fun c hc => hsb c (List.mem_cons_of_mem _ hc)
    cases r with
    | eof => simp [decodeU64Loop] at hdec
    | fail e => simp [decodeU64Loop] at hdec
    | byte b =>
      have hb : b < 256 := hsb b (List.mem_cons_self _ _)
      simp only [decodeU64Loop] at hdec
      by_cases hflag : b &&& 128 = 0
      · -- final byte
        have hblt : b < 128 := (byteSplit b hb).1 hflag
        rw [if_pos hflag] at hdec
        by_cases h1 : shift + 7 > 64 ∧ b > 1
        · rw [if_pos h1] at hdec; simp at hdec
        rw [if_neg h1] at hdec
        by_cases h2 : shift + 7 > 7 ∧ b = 0
        · rw [if_pos h2] at hdec; simp at hdec
        rw [if_neg h2] at hdec
        simp only [Prod.mk.injEq, Except.ok.injEq] at hdec
        obtain ⟨hv, hrest⟩ := hdec
        have hband : b &&& 127 = b := by rw [and127_eq_mod]; omega
        have hlor : res ||| b <<< shift = 2^shift * b + res := lor_shiftLeft _ _ _ hres
        have hbound : 2^shift * b + res < 2^64 := by
          by_cases hc : shift + 7 ≤ 64
          · have h1b : 2^shift * b + res < 2^(shift+7) := by
              rw [two_pow_add_seven]
              have h2b : 2^shift * (b + 1) ≤ 2^shift * 128 :=
                Nat.mul_le_mul_left _ (by omega)
              rw [Nat.mul_add, Nat.mul_one] at h2b
              omega
            exact Nat.lt_of_lt_of_le h1b (Nat.pow_le_pow_right (by norm_num) hc)
          · have hs63 : shift = 63 := by omega
            subst hs63
            have h1b : b ≤ 1 := by
              by_contra hgt
              exact h1 ⟨by omega, by omega⟩
            norm_num at hres ⊢
            omega
        refine ⟨b, ?_, ?_, by omega, by omega⟩
        · rw [EncodeU64]
          rw [if_pos (by rw [Nat.shiftRight_eq_div_pow]; norm_num; omega), hband]
          rw [hrest]
          rfl
        · rw [← hv, hband, hlor, Nat.mod_eq_of_lt hbound, Nat.add_comm]
      · -- continuation byte
        obtain ⟨hge, hband, -⟩ := (byteSplit b hb).2 hflag
        rw [if_neg hflag] at hdec
        by_cases hov : shift + 7 > 64
        · rw [if_pos hov] at hdec; simp at hdec
        rw [if_neg hov] at hdec
        have hlow : b - 128 < 128 := by omega
        have hlor : res ||| (b &&& 127) <<< shift = 2^shift * (b - 128) + res := by
          rw [hband]
          exact lor_shiftLeft _ _ _ hres
        have hbound : 2^shift * (b - 128) + res < 2^(shift+7) := by
          rw [two_pow_add_seven]
          have h2b : 2^shift * ((b - 128) + 1) ≤ 2^shift * 128 :=
            Nat.mul_le_mul_left _ (by omega)
          rw [Nat.mul_add, Nat.mul_one] at h2b
          omega
        have hb64 : 2^shift * (b - 128) + res < 2^64 :=
          Nat.lt_of_lt_of_le hbound (Nat.pow_le_pow_right (by norm_num) (by omega))
        rw [hlor, Nat.mod_eq_of_lt hb64] at hdec
        obtain ⟨m', hsrc', hv', hbound', hnz'⟩ :=
          ih (2^shift * (b - 128) + res) (shift + 7) v rest hsbt
            (by omega) (by omega) hbound hdec
        have hm'nz : m' ≠ 0 := by
          rcases hnz' with h | h
          · omega
          · exact h
        refine ⟨(b - 128) + 128 * m', ?_, ?_, ?_, by omega⟩
        · rw [EncodeU64]
          have hmod : ((b - 128) + 128 * m') &&& 127 = b - 128 := by
            rw [and127_eq_mod]
            omega
          have hdiv : ((b - 128) + 128 * m') >>> 7 = m' := by
            rw [Nat.shiftRight_eq_div_pow]
            norm_num
            omega
          rw [hdiv, if_neg hm'nz, hmod]
          have hor : (b - 128) ||| 128 = b := by
            have := (byteFacts (b - 128) hlow).2.1
            omega
          rw [hor, hsrc']
          rfl
        · rw [hv']
          have he3 : (2:Nat)^(shift+7) = 2^shift * 128 := two_pow_add_seven shift
          calc 2^shift * (b - 128) + res + 2^(shift+7) * m'
              = res + (2^shift * (b - 128) + 2^shift * (128 * m')) := by rw [he3]; ring
          _ = res + 2^shift * ((b - 128) + 128 * m') := by rw [← Nat.mul_add]
        · have he2 : (2:Nat)^(shift+7) * 2^(57-shift) = 2^64 := by
            rw [← pow_add]
            congr 1
            omega
          have hm'lt : m' < 2^(57-shift) := by
            by_contra hge'
            have : 2^(shift+7) * 2^(57-shift) ≤ 2^(shift+7) * m' :=
              Nat.mul_le_mul_left _ (by omega)
            omega
          have hstep : 2^shift * ((b - 128) + 128 * m') <
              2^(shift+7) * (m' + 1) := by
            rw [two_pow_add_seven]
            calc 2^shift * ((b - 128) + 128 * m')
                = 2^shift * (b - 128) + 2^shift * 128 * m' := by ring
            _ < 2^shift * 128 + 2^shift * 128 * m' := by
                have : 2^shift * (b - 128) < 2^shift * 128 :=
                  (Nat.mul_lt_mul_left (Nat.two_pow_pos shift)).2 (by omega)
                omega
            _ = 2^shift * 128 * (m' + 1) := by ring
          have hfin : 2^(shift+7) * (m' + 1) ≤ 2^64 := by
            calc 2^(shift+7) * (m' + 1) ≤ 2^(shift+7) * 2^(57-shift) :=
                  Nat.mul_le_mul_left _ (by omega)
            _ = 2^64 := he2
          omega

/-- Casting a power of two from `Nat` to `Int`. -/
theorem two_pow_cast (e : Nat) : ((2^e : Nat) : Int) = 2^e := by
  push_cast
  ring

/-- If the `DecodeS64` loop succeeds from state `(res, shift, prev)`, the
bytes it consumed are exactly the encoding of the remaining signed value. -/
theorem decodeS64Loop_sound : ∀ (src : List ReadResult) (res shift prev : Nat)
    (v : Int) (rest : List ReadResult),
    SrcBytes src → 7 ∣ shift → shift ≤ 63 → res < 2^shift →
    decodeS64Loop src res shift prev = (Except.ok v, rest) →
    ∃ m : Int, src = List.map ReadResult.byte (EncodeS64 m) ++ rest ∧
      v = toInt64 (res + 2^shift * ((m % 2^(64-shift)).toNat)) ∧
      -(2:Int)^(63-shift) ≤ m ∧ m < 2^(63-shift) ∧
      (shift = 0 ∨ ¬((m = 0 ∧ prev &&& 64 = 0) ∨ (m = -1 ∧ prev &&& 64 ≠ 0))) := by
  intro src
  induction src with
  | nil =>
    intro res shift prev v rest hsb h7 hsh hres hdec
    simp [decodeS64Loop] at hdec
  | cons r t ih =>
    intro res shift prev v rest hsb h7 hsh hres hdec
    have hsbt : SrcBytes t := fun c hc => hsb c (List.mem_cons_of_mem _ hc)
    cases r with
    | eof => simp [decodeS64Loop] at hdec
    | fail e => simp [decodeS64Loop] at hdec
    | byte b =>
      have hb : b < 256 := hsb b (List.mem_cons_self _ _)
      simp only [decodeS64Loop] at hdec
      by_cases hflag : b &&& 128 = 0
      · -- final byte
        have hblt : b < 128 := (byteSplit b hb).1 hflag
        rw [if_pos hflag] at hdec
        by_cases hc1 : shift + 7 > 64 ∧ b ≠ 0 ∧ b ≠ 127
        · rw [if_pos hc1] at hdec; simp at hdec
        rw [if_neg hc1] at hdec
        by_cases hc2 : shift + 7 > 7 ∧
            ((b = 0 ∧ prev &&& 64 = 0) ∨ (b = 127 ∧ prev &&& 64 > 0))
        · rw [if_pos hc2] at hdec; simp at hdec
        rw [if_neg hc2] at hdec
        have hband : b &&& 127 = b := by rw [and127_eq_mod]; omega
        have hlor : res ||| b <<< shift = 2^shift * b + res := lor_shiftLeft _ _ _ hres
        have hcase : shift ≤ 56 ∨ shift = 63 := by omega
        by_cases hsb64 : b &&& 64 = 0
        · -- positive final byte: the remaining value is b itself
          have hb63 : b < 64 := (and64_iff b hblt).1 hsb64
          have hc3 : ¬ (shift + 7 < 64 ∧ b &&& 64 > 0) := by
            rintro ⟨-, hp⟩
            omega
          rw [if_neg hc3] at hdec
          simp only [Prod.mk.injEq, Except.ok.injEq] at hdec
          obtain ⟨hv, hrest⟩ := hdec
          have hblt2 : b < 2^(63-shift) := by
            rcases hcase with hs | hs
            · have h64 : (64:Nat) ≤ 2^(63-shift) := by
                calc (64:Nat) = 2^6 := by norm_num
                _ ≤ 2^(63-shift) := Nat.pow_le_pow_right (by norm_num) (by omega)
              omega
            · have hb0 : b = 0 := by
                by_contra hne
                exact hc1 ⟨by omega, hne, by omega⟩
              subst hs
              rw [hb0]
              norm_num
          have hbound : 2^shift * b + res < 2^64 := by
            have h1b : 2^shift * (b+1) ≤ 2^shift * 2^(63-shift) :=
              Nat.mul_le_mul_left _ (by omega)
            have h3b : (2:Nat)^shift * 2^(63-shift) = 2^63 := by
              rw [← pow_add]
              congr 1
              omega
            have h4b : (2:Nat)^63 < 2^64 := by norm_num
            rw [Nat.mul_add, Nat.mul_one] at h1b
            omega
          have hmodtn : (((b:Int)) % 2^(64-shift)).toNat = b := by
            have h1 : ((b:Int)) < 2^(64-shift) := by
              have hle : (2:Int)^(63-shift) ≤ 2^(64-shift) :=
                pow_le_pow_right (by norm_num) (by omega)
              have hbc : ((b:Int)) < ((2^(63-shift) : Nat) : Int) := by
                exact_mod_cast hblt2
              rw [two_pow_cast] at hbc
              omega
            rw [Int.emod_eq_of_lt (by positivity) h1]
            omega
          refine ⟨(b:Int), ?_, ?_, ?_, ?_, ?_⟩
          · rw [EncodeS64]
            have hfd : Int.fdiv (b:Int) 128 = 0 := by
              rw [Int.fdiv_eq_ediv _ (by norm_num)]
              omega
            have hem : (Int.emod (b:Int) 128).toNat = b := by
              have hrfl : Int.emod (b:Int) 128 = (b:Int) % 128 := rfl
              rw [hrfl]
              omega
            rw [if_pos (Or.inl ⟨hfd, by rw [hem]; exact hsb64⟩), hem, hrest]
            rfl
          · rw [← hv, hband, hlor, Nat.mod_eq_of_lt hbound, hmodtn]
            rw [Nat.add_comm]
          · have hp : (0:Int) < 2^(63-shift) := by positivity
            omega
          · have hbc : ((b:Int)) < ((2^(63-shift) : Nat) : Int) := by
              exact_mod_cast hblt2
            rw [two_pow_cast] at hbc
            exact hbc
          · by_cases hs0 : shift = 0
            · exact Or.inl hs0
            · right
              rintro (⟨hb0, hp⟩ | ⟨hbm1, -⟩)
              · have hb0' : b = 0 := by exact_mod_cast hb0
                exact hc2 ⟨by omega, Or.inl ⟨hb0', hp⟩⟩
              · omega
        · -- negative final byte: the remaining value is b - 128
          have hb64 : 64 ≤ b := by
            by_contra hcon
            exact hsb64 ((and64_iff b hblt).2 (by omega))
          rcases hcase with hs56 | hs63
          · -- sign extension taken by the decoder
            have hc3 : shift + 7 < 64 ∧ b &&& 64 > 0 := ⟨by omega, by omega⟩
            rw [if_pos hc3] at hdec
            simp only [Prod.mk.injEq, Except.ok.injEq] at hdec
            obtain ⟨hv, hrest⟩ := hdec
            have hbound : 2^shift * b + res < 2^(shift+7) := by
              rw [two_pow_add_seven]
              have h2b : 2^shift * (b + 1) ≤ 2^shift * 128 :=
                Nat.mul_le_mul_left _ (by omega)
              rw [Nat.mul_add, Nat.mul_one] at h2b
              omega
            have hb64' : 2^shift * b + res < 2^64 := by
              have hp : (2:Nat)^(shift+7) ≤ 2^64 :=
                Nat.pow_le_pow_right (by norm_num) (by omega)
              omega
            have hmask : (2:Nat)^64 - 2^(shift+7) = (2^(57-shift) - 1) <<< (shift + 7) := by
              rw [Nat.shiftLeft_eq]
              have h1 : (2:Nat)^(57-shift) * 2^(shift+7) = 2^64 := by
                rw [← pow_add]
                congr 1
                omega
              calc (2:Nat)^64 - 2^(shift+7)
                  = 2^(57-shift) * 2^(shift+7) - 1 * 2^(shift+7) := by
                    rw [h1, Nat.one_mul]
              _ = (2^(57-shift) - 1) * 2^(shift+7) := by rw [Nat.sub_mul]
            have hM256 : (256:Int) ≤ 2^(64-shift) := by
              calc (256:Int) = 2^8 := by norm_num
              _ ≤ 2^(64-shift) := pow_le_pow_right (by norm_num) (by omega)
            have hmodv : ((b:Int) - 128) % 2^(64-shift) = (b:Int) - 128 + 2^(64-shift) := by
              have h4 : ((b:Int) - 128 + 2^(64-shift) * 1) % 2^(64-shift)
                  = ((b:Int) - 128) % 2^(64-shift) :=
                Int.add_mul_emod_self_left _ _ 1
              rw [mul_one] at h4
              rw [← h4]
              refine Int.emod_eq_of_lt (by omega) (by omega)
            have hM256n : (256:Nat) ≤ 2^(64-shift) := by
              calc (256:Nat) = 2^8 := by norm_num
              _ ≤ 2^(64-shift) := Nat.pow_le_pow_right (by norm_num) (by omega)
            have hval : (((b:Int) - 128) % 2^(64-shift)).toNat
                = b + 2^(64-shift) - 128 := by
              rw [hmodv]
              have hMc := two_pow_cast (64-shift)
              omega
            have hbits : 2^(shift+7) * (2^(57-shift) - 1) + (2^shift * b + res)
                = res + 2^shift * (b + 2^(64-shift) - 128) := by
              have e1 : (2:Nat)^(shift+7) * 2^(57-shift) = 2^64 := by
                rw [← pow_add]
                congr 1
                omega
              have e2 : (2:Nat)^shift * 2^(64-shift) = 2^64 := by
                rw [← pow_add]
                congr 1
                omega
              have e3 : (2:Nat)^(shift+7) = 2^shift * 128 := two_pow_add_seven shift
              have hsub1 : (1:Nat) ≤ 2^(57-shift) := Nat.one_le_two_pow
              have hsub2 : (128:Nat) ≤ b + 2^(64-shift) := by omega
              zify [hsub1, hsub2] at e1 e2 e3 ⊢
              linear_combination e1 - e2 - e3
            refine ⟨(b:Int) - 128, ?_, ?_, ?_, ?_, ?_⟩
            · rw [EncodeS64]
              have hfd : Int.fdiv ((b:Int) - 128) 128 = -1 := by
                rw [Int.fdiv_eq_ediv _ (by norm_num)]
                omega
              have hem : (Int.emod ((b:Int) - 128) 128).toNat = b := by
                have hrfl : Int.emod ((b:Int) - 128) 128 = ((b:Int) - 128) % 128 := rfl
                rw [hrfl]
                omega
              rw [if_pos (Or.inr ⟨hfd, by rw [hem]; exact hsb64⟩), hem, hrest]
              rfl
            · rw [← hv, hband, hlor, Nat.mod_eq_of_lt hb64', hmask,
                lor_shiftLeft _ _ _ hbound, hval, hbits]
            · have hp128 : (128:Int) ≤ 2^(63-shift) := by
                calc (128:Int) = 2^7 := by norm_num
                _ ≤ 2^(63-shift) := pow_le_pow_right (by norm_num) (by omega)
              omega
            · have hp : (0:Int) < 2^(63-shift) := by positivity
              omega
            · by_cases hs0 : shift = 0
              · exact Or.inl hs0
              · right
                rintro (⟨hb0, -⟩ | ⟨hbm1, hp⟩)
                · omega
                · have hb127 : b = 127 := by omega
                  exact hc2 ⟨by omega, Or.inr ⟨hb127, by omega⟩⟩
          · -- shift = 63: the 10th byte, value -1
            subst hs63
            have hb127 : b = 127 := by
              by_contra hne
              exact hc1 ⟨by omega, by omega, hne⟩
            subst hb127
            have hc3 : ¬ (63 + 7 < 64 ∧ (127:Nat) &&& 64 > 0) := by
              rintro ⟨hlt, -⟩
              omega
            rw [if_neg hc3] at hdec
            simp only [Prod.mk.injEq, Except.ok.injEq] at hdec
            obtain ⟨hv, hrest⟩ := hdec
            refine ⟨-1, ?_, ?_, by norm_num, by norm_num, ?_⟩
            · rw [EncodeS64]
              rw [if_pos (Or.inr ⟨by decide, by decide⟩)]
              have hem : (Int.emod (-1:Int) 128).toNat = 127 := by decide
              rw [hem, hrest]
              rfl
            · rw [← hv, hband, hlor]
              have hmod64 : (2^63 * 127 + res) % 2^64 = res + 2^63 := by omega
              rw [hmod64]
              have hm1 : (((-1:Int)) % 2^(64-63)).toNat = 1 := by decide
              rw [hm1, Nat.mul_one]
            · right
              rintro (⟨hb0, -⟩ | ⟨-, hp⟩)
              · omega
              · have hpz : prev &&& 64 = 0 := by
                  by_contra hne
                  exact hc2 ⟨by omega, Or.inr ⟨rfl, by omega⟩⟩
                exact hp hpz
      · -- continuation byte
        obtain ⟨hge, hband, hb64eq⟩ := (byteSplit b hb).2 hflag
        rw [if_neg hflag] at hdec
        by_cases hov : shift + 7 > 64
        · rw [if_pos hov] at hdec; simp at hdec
        rw [if_neg hov] at hdec
        have hs56 : shift ≤ 56 := by omega
        have hlow : b - 128 < 128 := by omega
        have hlor : res ||| (b &&& 127) <<< shift = 2^shift * (b - 128) + res := by
          rw [hband]
          exact lor_shiftLeft _ _ _ hres
        have hbound : 2^shift * (b - 128) + res < 2^(shift+7) := by
          rw [two_pow_add_seven]
          have h2b : 2^shift * ((b - 128) + 1) ≤ 2^shift * 128 :=
            Nat.mul_le_mul_left _ (by omega)
          rw [Nat.mul_add, Nat.mul_one] at h2b
          omega
        have hb64' : 2^shift * (b - 128) + res < 2^64 :=
          Nat.lt_of_lt_of_le hbound (Nat.pow_le_pow_right (by norm_num) (by omega))
        rw [hlor, Nat.mod_eq_of_lt hb64'] at hdec
        obtain ⟨m', hsrc', hv', hlo', hhi', hprev'⟩ :=
          ih (2^shift * (b - 128) + res) (shift + 7) b v rest hsbt
            (by omega) (by omega) hbound hdec
        have hprne : ¬((m' = 0 ∧ b &&& 64 = 0) ∨ (m' = -1 ∧ b &&& 64 ≠ 0)) := by
          rcases hprev' with h | h
          · omega
          · exact h
        have hexp : (63:Nat) - (shift + 7) = 56 - shift := by omega
        rw [hexp] at hlo' hhi'
        have hpow : (2:Int)^(56-shift) * 128 = 2^(63-shift) := by
          rw [show (128:Int) = 2^7 by norm_num, ← pow_add]
          congr 1
          omega
        have hfd : Int.fdiv ((b:Int) - 128 + 128 * m') 128 = m' := by
          rw [Int.fdiv_eq_ediv _ (by norm_num)]
          rw [Int.add_mul_ediv_left _ _ (by norm_num : (128:Int) ≠ 0)]
          omega
        have hemod : Int.emod ((b:Int) - 128 + 128 * m') 128 = (b:Int) - 128 := by
          have hrfl : Int.emod ((b:Int) - 128 + 128 * m') 128
              = ((b:Int) - 128 + 128 * m') % 128 := rfl
          rw [hrfl, Int.add_mul_emod_self_left]
          omega
        have hem : (Int.emod ((b:Int) - 128 + 128 * m') 128).toNat = b - 128 := by
          rw [hemod]
          omega
        refine ⟨(b:Int) - 128 + 128 * m', ?_, ?_, ?_, ?_, ?_⟩
        · rw [EncodeS64, hfd, hem]
          have hnotdone : ¬ ((m' = 0 ∧ (b - 128) &&& 64 = 0) ∨
              (m' = -1 ∧ (b - 128) &&& 64 ≠ 0)) := by
            rw [← hb64eq]
            exact hprne
          rw [if_neg hnotdone]
          have hor : (b - 128) ||| 128 = b := by
            have := (byteFacts (b - 128) hlow).2.1
            omega
          rw [hor, hsrc']
          rfl
        · rw [hv']
          have hexp2 : (64:Nat) - (shift + 7) = 57 - shift := by omega
          have hval : res + 2^shift * ((((b:Int) - 128 + 128 * m') % 2^(64-shift)).toNat)
              = 2^shift * (b - 128) + res + 2^(shift+7) * ((m' % 2^(64-(shift+7))).toNat) := by
            have hsplit64 : (2:Int)^(64-shift) = 128 * 2^(57-shift) := by
              rw [show (128:Int) = 2^7 by norm_num, ← pow_add]
              congr 1
              omega
            have hdecomp : ((b:Int) - 128 + 128 * m') % 2^(64-shift)
                = ((b:Int) - 128 + 128 * m') % 128
                  + 128 * (((b:Int) - 128 + 128 * m') / 128 % 2^(57-shift)) := by
              rw [hsplit64, emod_128_two_pow]
            have hfd' : ((b:Int) - 128 + 128 * m') / 128 = m' := by
              rw [← Int.fdiv_eq_ediv _ (by norm_num)]
              exact hfd
            have hemod' : ((b:Int) - 128 + 128 * m') % 128 = (b:Int) - 128 := by
              rw [Int.add_mul_emod_self_left]
              omega
            rw [hdecomp, hfd', hemod']
            have hy0 : 0 ≤ m' % 2^(57-shift) := Int.emod_nonneg _ (by positivity)
            have htn : ((b:Int) - 128 + 128 * (m' % 2^(57-shift))).toNat
                = (b - 128) + 128 * ((m' % 2^(57-shift)).toNat) := by
              omega
            rw [htn, hexp2, two_pow_add_seven]
            ring
          rw [hval]
        · have hp : (0:Int) < 2^(56-shift) := by positivity
          omega
        · have hp : (0:Int) < 2^(56-shift) := by positivity
          omega
        · right
          rintro (⟨hm0, -⟩ | ⟨hm1, -⟩)
          · have hm'0 : m' = 0 := by omega
            have hbeq : b = 128 := by omega
            have hz : b &&& 64 = 0 := by rw [hbeq]; decide
            exact hprne (Or.inl ⟨hm'0, hz⟩)
          · have hm'm1 : m' = -1 := by omega
            have hbeq : b = 255 := by omega
            have hnz : b &&& 64 ≠ 0 := by rw [hbeq]; decide
            exact hprne (Or.inr ⟨hm'm1, hnz⟩)

/-- C1: for every byte sequence and each decode operation, if the operation
succeeds with value `v`, the bytes it consumed are exactly the minimal
encoding of `v` — the source equals the corresponding encoder's output for
`v` followed by the unconsumed remainder. -/
theorem c1_decode_minimal :
    (∀ (src : List ReadResult) (v : Nat) (rest : List ReadResult),
      SrcBytes src → DecodeU32 src = (Except.ok v, rest) →
      src = List.map ReadResult.byte (EncodeU32 v) ++ rest) ∧
    (∀ (src : List ReadResult) (v : Nat) (rest : List ReadResult),
      SrcBytes src → DecodeU64 src = (Except.ok v, rest) →
      src = List.map ReadResult.byte (EncodeU64 v) ++ rest) ∧
    (∀ (src : List ReadResult) (v : Int) (rest : List ReadResult),
      SrcBytes src → DecodeS64 src = (Except.ok v, rest) →
      src = List.map ReadResult.byte (EncodeS64 v) ++ rest) := by
  refine ⟨?_, ?_, ?_⟩
  · intro src v rest hsb hdec
    obtain ⟨m, hsrc, hv, -, -⟩ := decodeU32Loop_sound src 0 0 v rest hsb ⟨0, rfl⟩
      (by norm_num) (by norm_num) hdec
    have hm : m = v := by omega
    rw [hsrc, hm]
  · intro src v rest hsb hdec
    obtain ⟨m, hsrc, hv, -, -⟩ := decodeU64Loop_sound src 0 0 v rest hsb ⟨0, rfl⟩
      (by norm_num) (by norm_num) hdec
    have hm : m = v := by omega
    rw [hsrc, hm]
  · intro src v rest hsb hdec
    obtain ⟨m, hsrc, hv, hlo, hhi, -⟩ := decodeS64Loop_sound src 0 0 0 v rest hsb
      ⟨0, rfl⟩ (by norm_num) (by norm_num) hdec
    have hm : v = m := by
      rw [hv]
      have hsimp : (0:Nat) + 2^0 * ((m % 2^(64-0)).toNat) = (m % 2^64).toNat := by
        norm_num
      rw [hsimp]
      unfold toInt64
      have hlo64 : -(2:Int)^63 ≤ m := by simpa using hlo
      have hhi64 : m < 2^63 := by simpa using hhi
      split <;> omega
    rw [hsrc, ← hm]

/-- Witness for C1 at concrete successful decodes of single-byte inputs. -/
theorem c1_decode_minimal_witness :
    [ReadResult.byte 5] = List.map ReadResult.byte (EncodeU32 5) ++ ([] : List ReadResult) ∧
    [ReadResult.byte 7] = List.map ReadResult.byte (EncodeU64 7) ++ ([] : List ReadResult) ∧
    [ReadResult.byte 127] = List.map ReadResult.byte (EncodeS64 (-1)) ++ ([] : List ReadResult) :=
  ⟨c1_decode_minimal.1 [ReadResult.byte 5] 5 [] (by decide) rfl,
   c1_decode_minimal.2.1 [ReadResult.byte 7] 7 [] (by decide) rfl,
   c1_decode_minimal.2.2 [ReadResult.byte 127] (-1) [] (by decide) rfl⟩

/-! ### Error paths -/

/-- A byte with the continuation flag set is consumed by the `DecodeU32` loop
without stopping, as long as the shift budget is not exhausted. -/
theorem cont_byte_flag {c : Nat} (hge : 128 ≤ c) (hlt : c < 256) : c &&& 128 ≠ 0 := by
  intro h
  have := (byteSplit c hlt).1 h
  omega

theorem decodeU32Loop_eof (cont : List Nat) : ∀ (res shift : Nat)
    (rest : List ReadResult),
    (∀ c ∈ cont, 128 ≤ c ∧ c < 256) → shift + 7 * cont.length ≤ 32 →
    decodeU32Loop (List.map ReadResult.byte cont ++ ReadResult.eof :: rest) res shift
      = (Except.error DecodeErr.nonMinimal, rest) := by
  induction cont with
  | nil =>
    intro res shift rest hc hsh
    simp [decodeU32Loop]
  | cons c t ihc =>
    intro res shift rest hc hsh
    obtain ⟨hge, hlt⟩ := hc c (List.mem_cons_self _ _)
    have hlen : shift + 7 * (c :: t).length = shift + 7 + 7 * t.length := by
      simp [List.length_cons]
      ring
    simp only [List.map_cons, List.cons_append, decodeU32Loop]
    rw [if_neg (cont_byte_flag hge hlt), if_neg (by omega : ¬ (shift + 7 > 32))]
    exact ihc _ _ _ (fun d hd => hc d (List.mem_cons_of_mem _ hd)) (by omega)

theorem decodeU64Loop_eof (cont : List Nat) : ∀ (res shift : Nat)
    (rest : List ReadResult),
    (∀ c ∈ cont, 128 ≤ c ∧ c < 256) → shift + 7 * cont.length ≤ 64 →
    decodeU64Loop (List.map ReadResult.byte cont ++ ReadResult.eof :: rest) res shift
      = (Except.error DecodeErr.nonMinimal, rest) := by
  induction cont with
  | nil =>
    intro res shift rest hc hsh
    simp [decodeU64Loop]
  | cons c t ihc =>
    intro res shift rest hc hsh
    obtain ⟨hge, hlt⟩ := hc c (List.mem_cons_self _ _)
    have hlen : shift + 7 * (c :: t).length = shift + 7 + 7 * t.length := by
      simp [List.length_cons]
      ring
    simp only [List.map_cons, List.cons_append, decodeU64Loop]
    rw [if_neg (cont_byte_flag hge hlt), if_neg (by omega : ¬ (shift + 7 > 64))]
    exact ihc _ _ _ (fun d hd => hc d (List.mem_cons_of_mem _ hd)) (by omega)

theorem decodeS64Loop_eof (cont : List Nat) : ∀ (res shift prev : Nat)
    (rest : List ReadResult),
    (∀ c ∈ cont, 128 ≤ c ∧ c < 256) → shift + 7 * cont.length ≤ 64 →
    decodeS64Loop (List.map ReadResult.byte cont ++ ReadResult.eof :: rest) res shift prev
      = (Except.error DecodeErr.nonMinimal, rest) := by
  induction cont with
  | nil =>
    intro res shift prev rest hc hsh
    simp [decodeS64Loop]
  | cons c t ihc =>
    intro res shift prev rest hc hsh
    obtain ⟨hge, hlt⟩ := hc c (List.mem_cons_self _ _)
    have hlen : shift + 7 * (c :: t).length = shift + 7 + 7 * t.length := by
      simp [List.length_cons]
      ring
    simp only [List.map_cons, List.cons_append, decodeS64Loop]
    rw [if_neg (cont_byte_flag hge hlt), if_neg (by omega : ¬ (shift + 7 > 64))]
    exact ihc _ _ _ _ (fun d hd => hc d (List.mem_cons_of_mem _ hd)) (by omega)

/-- Counterexample to C5 as stated: after five continuation bytes,
`DecodeU32` fails with Overflow before ever reading the end-of-input signal,
so end-of-input after "any number" of continuation bytes does not always
yield NonMinimal. -/
theorem c5_counterexample :
    (DecodeU32 [ReadResult.byte 0xFF, ReadResult.byte 0xFF, ReadResult.byte 0xFF,
        ReadResult.byte 0xFF, ReadResult.byte 0xFF, ReadResult.eof]).1
      = Except.error DecodeErr.overflow ∧
    (Except.error DecodeErr.overflow : Except DecodeErr Nat)
      ≠ Except.error DecodeErr.nonMinimal := by
  constructor
  · rfl
  · intro h
    exact DecodeErr.noConfusion (Except.error.inj h)

/-- C5 (amended): if the source signals end-of-input before any terminating
byte, after at most 4 continuation bytes for `DecodeU32` (resp. at most 9 for
`DecodeU64` and `DecodeS64`), decoding fails with NonMinimal; with more
continuation bytes the decoder fails with Overflow before reaching the
end-of-input. -/
theorem c5_eof_nonMinimal :
    (∀ (cont : List Nat) (rest : List ReadResult),
      (∀ c ∈ cont, 128 ≤ c ∧ c < 256) → cont.length ≤ 4 →
      DecodeU32 (List.map ReadResult.byte cont ++ ReadResult.eof :: rest)
        = (Except.error DecodeErr.nonMinimal, rest)) ∧
    (∀ (cont : List Nat) (rest : List ReadResult),
      (∀ c ∈ cont, 128 ≤ c ∧ c < 256) → cont.length ≤ 9 →
      DecodeU64 (List.map ReadResult.byte cont ++ ReadResult.eof :: rest)
        = (Except.error DecodeErr.nonMinimal, rest)) ∧
    (∀ (cont : List Nat) (rest : List ReadResult),
      (∀ c ∈ cont, 128 ≤ c ∧ c < 256) → cont.length ≤ 9 →
      DecodeS64 (List.map ReadResult.byte cont ++ ReadResult.eof :: rest)
        = (Except.error DecodeErr.nonMinimal, rest)) := by
  refine ⟨?_, ?_, ?_⟩
  · intro cont rest hc hlen
    exact decodeU32Loop_eof cont 0 0 rest hc (by omega)
  · intro cont rest hc hlen
    exact decodeU64Loop_eof cont 0 0 rest hc (by omega)
  · intro cont rest hc hlen
    exact decodeS64Loop_eof cont 0 0 0 rest hc (by omega)

/-- Witness for C5 (amended) at the empty source (immediate end-of-input). -/
theorem c5_eof_nonMinimal_witness :
    DecodeU32 [ReadResult.eof] = (Except.error DecodeErr.nonMinimal, []) ∧
    DecodeU64 [ReadResult.eof] = (Except.error DecodeErr.nonMinimal, []) ∧
    DecodeS64 [ReadResult.eof] = (Except.error DecodeErr.nonMinimal, []) :=
  ⟨c5_eof_nonMinimal.1 [] [] (by simp) (by simp),
   c5_eof_nonMinimal.2.1 [] [] (by simp) (by simp),
   c5_eof_nonMinimal.2.2 [] [] (by simp) (by simp)⟩

theorem decodeU32Loop_term_overflow (cont : List Nat) : ∀ (res shift b : Nat)
    (rest : List ReadResult),
    (∀ c ∈ cont, 128 ≤ c ∧ c < 256) → shift + 7 * cont.length = 28 →
    b < 128 → 15 < b →
    decodeU32Loop (List.map ReadResult.byte cont ++ ReadResult.byte b :: rest) res shift
      = (Except.error DecodeErr.overflow, rest) := by
  induction cont with
  | nil =>
    intro res shift b rest hc hsh hblt hbgt
    have hs28 : shift = 28 := by simpa using hsh
    subst hs28
    simp only [List.map_nil, List.nil_append, decodeU32Loop]
    rw [if_pos (byteFacts b hblt).1, if_pos ⟨by omega, by omega⟩]
  | cons c t ihc =>
    intro res shift b rest hc hsh hblt hbgt
    obtain ⟨hge, hlt⟩ := hc c (List.mem_cons_self _ _)
    have hlen : shift + 7 * (c :: t).length = shift + 7 + 7 * t.length := by
      simp [List.length_cons]
      ring
    simp only [List.map_cons, List.cons_append, decodeU32Loop]
    rw [if_neg (cont_byte_flag hge hlt), if_neg (by omega : ¬ (shift + 7 > 32))]
    exact ihc _ _ _ _ (fun d hd => hc d (List.mem_cons_of_mem _ hd)) (by omega) hblt hbgt

/-- C6: `DecodeU32` fails with Overflow when the terminating byte is read
with the shift counter beyond 32 (i.e. after four continuation bytes) and a
payload above 0b1111. -/
theorem c6_decodeU32_overflow (cont : List Nat) (b : Nat) (rest : List ReadResult)
    (hlen : cont.length = 4) (hc : ∀ c ∈ cont, 128 ≤ c ∧ c < 256)
    (hblt : b < 128) (hbgt : 15 < b) :
    DecodeU32 (List.map ReadResult.byte cont ++ ReadResult.byte b :: rest)
      = (Except.error DecodeErr.overflow, rest) :=
  decodeU32Loop_term_overflow cont 0 0 b rest hc (by omega) hblt hbgt

/-- Witness for C6 at the spec's example `[0xFF, 0xFF, 0xFF, 0xFF, 0x10]`. -/
theorem c6_decodeU32_overflow_witness :
    DecodeU32 (List.map ReadResult.byte [0xFF, 0xFF, 0xFF, 0xFF]
        ++ ReadResult.byte 0x10 :: ([] : List ReadResult))
      = (Except.error DecodeErr.overflow, []) :=
  c6_decodeU32_overflow [0xFF, 0xFF, 0xFF, 0xFF] 0x10 [] (by decide) (by decide)
    (by norm_num) (by norm_num)

theorem decodeU64Loop_cont_overflow (cont : List Nat) : ∀ (res shift : Nat)
    (rest : List ReadResult),
    (∀ c ∈ cont, 128 ≤ c ∧ c < 256) → shift + 7 * cont.length = 70 → shift ≤ 63 →
    decodeU64Loop (List.map ReadResult.byte cont ++ rest) res shift
      = (Except.error DecodeErr.overflow, rest) := by
  induction cont with
  | nil =>
    intro res shift rest hc hsh hle
    simp at hsh
    omega
  | cons c t ihc =>
    intro res shift rest hc hsh hle
    obtain ⟨hge, hlt⟩ := hc c (List.mem_cons_self _ _)
    have hlen : shift + 7 * (c :: t).length = shift + 7 + 7 * t.length := by
      simp [List.length_cons]
      ring
    simp only [List.map_cons, List.cons_append, decodeU64Loop]
    rw [if_neg (cont_byte_flag hge hlt)]
    by_cases hgt : shift + 7 > 64
    · rw [if_pos hgt]
      have ht0 : t.length = 0 := by omega
      rw [List.length_eq_zero] at ht0
      subst ht0
      rfl
    · rw [if_neg hgt]
      have htpos : 1 ≤ t.length := by
        by_contra hz
        have : t.length = 0 := by omega
        omega
      exact ihc _ _ _ (fun d hd => hc d (List.mem_cons_of_mem _ hd)) (by omega) (by omega)

theorem decodeU64Loop_term_overflow (cont : List Nat) : ∀ (res shift b : Nat)
    (rest : List ReadResult),
    (∀ c ∈ cont, 128 ≤ c ∧ c < 256) → shift + 7 * cont.length = 63 →
    b < 128 → 1 < b →
    decodeU64Loop (List.map ReadResult.byte cont ++ ReadResult.byte b :: rest) res shift
      = (Except.error DecodeErr.overflow, rest) := by
  induction cont with
  | nil =>
    intro res shift b rest hc hsh hblt hbgt
    have hs63 : shift = 63 := by simpa using hsh
    subst hs63
    simp only [List.map_nil, List.nil_append, decodeU64Loop]
    rw [if_pos (byteFacts b hblt).1, if_pos ⟨by omega, by omega⟩]
  | cons c t ihc =>
    intro res shift b rest hc hsh hblt hbgt
    obtain ⟨hge, hlt⟩ := hc c (List.mem_cons_self _ _)
    have hlen : shift + 7 * (c :: t).length = shift + 7 + 7 * t.length := by
      simp [List.length_cons]
      ring
    simp only [List.map_cons, List.cons_append, decodeU64Loop]
    rw [if_neg (cont_byte_flag hge hlt), if_neg (by omega : ¬ (shift + 7 > 64))]
    exact ihc _ _ _ _ (fun d hd => hc d (List.mem_cons_of_mem _ hd)) (by omega) hblt hbgt

/-- C7: `DecodeU64` fails with Overflow at the 64-bit thresholds: a tenth
continuation byte trips the overflow check immediately, and a terminating
10th byte whose payload exceeds 1 is also rejected. -/
theorem c7_decodeU64_overflow :
    (∀ (cont : List Nat) (rest : List ReadResult),
      cont.length = 10 → (∀ c ∈ cont, 128 ≤ c ∧ c < 256) →
      DecodeU64 (List.map ReadResult.byte cont ++ rest)
        = (Except.error DecodeErr.overflow, rest)) ∧
    (∀ (cont : List Nat) (b : Nat) (rest : List ReadResult),
      cont.length = 9 → (∀ c ∈ cont, 128 ≤ c ∧ c < 256) → b < 128 → 1 < b →
      DecodeU64 (List.map ReadResult.byte cont ++ ReadResult.byte b :: rest)
        = (Except.error DecodeErr.overflow, rest)) := by
  constructor
  · intro cont rest hlen hc
    exact decodeU64Loop_cont_overflow cont 0 0 rest hc (by omega) (by omega)
  · intro cont b rest hlen hc hblt hbgt
    exact decodeU64Loop_term_overflow cont 0 0 b rest hc (by omega) hblt hbgt

/-- Witness for C7: ten `0xFF` continuation bytes, and nine `0xFF` bytes
followed by the terminator 2. -/
theorem c7_decodeU64_overflow_witness :
    DecodeU64 (List.map ReadResult.byte (List.replicate 10 0xFF) ++ ([] : List ReadResult))
      = (Except.error DecodeErr.overflow, []) ∧
    DecodeU64 (List.map ReadResult.byte (List.replicate 9 0xFF)
        ++ ReadResult.byte 2 :: ([] : List ReadResult))
      = (Except.error DecodeErr.overflow, []) :=
  ⟨c7_decodeU64_overflow.1 (List.replicate 10 0xFF) [] (by decide) (by decide),
   c7_decodeU64_overflow.2 (List.replicate 9 0xFF) 2 [] (by decide) (by decide)
     (by norm_num) (by norm_num)⟩

theorem decodeS64Loop_overlong (cont : List Nat) : ∀ (res shift prev b : Nat)
    (rest : List ReadResult),
    (∀ c ∈ cont, 128 ≤ c ∧ c < 256) → 0 < shift + 7 * cont.length →
    shift + 7 * cont.length ≤ 63 → b < 128 →
    ((b = 0 ∧ (cont.getLastD prev) &&& 64 = 0) ∨
     (b = 127 ∧ (cont.getLastD prev) &&& 64 ≠ 0)) →
    decodeS64Loop (List.map ReadResult.byte cont ++ ReadResult.byte b :: rest)
        res shift prev
      = (Except.error DecodeErr.nonMinimal, rest) := by
  induction cont with
  | nil =>
    intro res shift prev b rest hc hpos hsh hblt hcond
    simp only [List.getLastD_nil] at hcond
    have hspos : 0 < shift := by simpa using hpos
    simp only [List.map_nil, List.nil_append, decodeS64Loop]
    rw [if_pos (byteFacts b hblt).1]
    have hc1 : ¬ (shift + 7 > 64 ∧ b ≠ 0 ∧ b ≠ 127) := by
      rintro ⟨-, hb0, hb127⟩
      rcases hcond with ⟨h, -⟩ | ⟨h, -⟩
      · exact hb0 h
      · exact hb127 h
    rw [if_neg hc1]
    rw [if_pos ⟨by omega, by
      rcases hcond with ⟨hb, hp⟩ | ⟨hb, hp⟩
      · exact Or.inl ⟨hb, hp⟩
      · exact Or.inr ⟨hb, by omega⟩⟩]
  | cons c t ihc =>
    intro res shift prev b rest hc hpos hsh hblt hcond
    obtain ⟨hge, hlt⟩ := hc c (List.mem_cons_self _ _)
    have hlen : shift + 7 * (c :: t).length = shift + 7 + 7 * t.length := by
      simp [List.length_cons]
      ring
    rw [List.getLastD_cons] at hcond
    simp only [List.map_cons, List.cons_append, decodeS64Loop]
    rw [if_neg (cont_byte_flag hge hlt), if_neg (by omega : ¬ (shift + 7 > 64))]
    exact ihc _ _ _ _ _ (fun d hd => hc d (List.mem_cons_of_mem _ hd))
      (by omega) (by omega) hblt hcond

/-- C8: `DecodeS64` fails with NonMinimal ("overlong") when the terminating
byte only repeats the sign extension implied by the previous byte: final byte
0 after a previous byte with bit 0x40 clear, or final byte 0x7F after a
previous byte with bit 0x40 set. -/
theorem c8_decodeS64_overlong (cont : List Nat) (b : Nat) (rest : List ReadResult)
    (hlen1 : 1 ≤ cont.length) (hlen9 : cont.length ≤ 9)
    (hc : ∀ c ∈ cont, 128 ≤ c ∧ c < 256) (hblt : b < 128)
    (hcond : (b = 0 ∧ (cont.getLastD 0) &&& 64 = 0) ∨
             (b = 127 ∧ (cont.getLastD 0) &&& 64 ≠ 0)) :
    DecodeS64 (List.map ReadResult.byte cont ++ ReadResult.byte b :: rest)
      = (Except.error DecodeErr.nonMinimal, rest) :=
  decodeS64Loop_overlong cont 0 0 0 b rest hc (by omega) (by omega) hblt hcond

/-- Witness for C8 at the spec's example `[0xFF, 0x7F]`. -/
theorem c8_decodeS64_overlong_witness :
    DecodeS64 (List.map ReadResult.byte [0xFF]
        ++ ReadResult.byte 0x7F :: ([] : List ReadResult))
      = (Except.error DecodeErr.nonMinimal, []) :=
  c8_decodeS64_overlong [0xFF] 0x7F [] (by decide) (by decide) (by decide)
    (by norm_num) (Or.inr (by decide))

theorem decodeU32Loop_fail (cont : List Nat) : ∀ (res shift e : Nat)
    (rest : List ReadResult),
    (∀ c ∈ cont, 128 ≤ c ∧ c < 256) → shift + 7 * cont.length ≤ 32 →
    decodeU32Loop (List.map ReadResult.byte cont ++ ReadResult.fail e :: rest) res shift
      = (Except.error (DecodeErr.source e), rest) := by
  induction cont with
  | nil =>
    intro res shift e rest hc hsh
    simp [decodeU32Loop]
  | cons c t ihc =>
    intro res shift e rest hc hsh
    obtain ⟨hge, hlt⟩ := hc c (List.mem_cons_self _ _)
    have hlen : shift + 7 * (c :: t).length = shift + 7 + 7 * t.length := by
      simp [List.length_cons]
      ring
    simp only [List.map_cons, List.cons_append, decodeU32Loop]
    rw [if_neg (cont_byte_flag hge hlt), if_neg (by omega : ¬ (shift + 7 > 32))]
    exact ihc _ _ _ _ (fun d hd => hc d (List.mem_cons_of_mem _ hd)) (by omega)

theorem decodeU64Loop_fail (cont : List Nat) : ∀ (res shift e : Nat)
    (rest : List ReadResult),
    (∀ c ∈ cont, 128 ≤ c ∧ c < 256) → shift + 7 * cont.length ≤ 64 →
    decodeU64Loop (List.map ReadResult.byte cont ++ ReadResult.fail e :: rest) res shift
      = (Except.error (DecodeErr.source e), rest) := by
  induction cont with
  | nil =>
    intro res shift e rest hc hsh
    simp [decodeU64Loop]
  | cons c t ihc =>
    intro res shift e rest hc hsh
    obtain ⟨hge, hlt⟩ := hc c (List.mem_cons_self _ _)
    have hlen : shift + 7 * (c :: t).length = shift + 7 + 7 * t.length := by
      simp [List.length_cons]
      ring
    simp only [List.map_cons, List.cons_append, decodeU64Loop]
    rw [if_neg (cont_byte_flag hge hlt), if_neg (by omega : ¬ (shift + 7 > 64))]
    exact ihc _ _ _ _ (fun d hd => hc d (List.mem_cons_of_mem _ hd)) (by omega)

theorem decodeS64Loop_fail (cont : List Nat) : ∀ (res shift prev e : Nat)
    (rest : List ReadResult),
    (∀ c ∈ cont, 128 ≤ c ∧ c < 256) → shift + 7 * cont.length ≤ 64 →
    decodeS64Loop (List.map ReadResult.byte cont ++ ReadResult.fail e :: rest)
        res shift prev
      = (Except.error (DecodeErr.source e), rest) := by
  induction cont with
  | nil =>
    intro res shift prev e rest hc hsh
    simp [decodeS64Loop]
  | cons c t ihc =>
    intro res shift prev e rest hc hsh
    obtain ⟨hge, hlt⟩ := hc c (List.mem_cons_self _ _)
    have hlen : shift + 7 * (c :: t).length = shift + 7 + 7 * t.length := by
      simp [List.length_cons]
      ring
    simp only [List.map_cons, List.cons_append, decodeS64Loop]
    rw [if_neg (cont_byte_flag hge hlt), if_neg (by omega : ¬ (shift + 7 > 64))]
    exact ihc _ _ _ _ _ (fun d hd => hc d (List.mem_cons_of_mem _ hd)) (by omega)

/-- C9: if the source signals a failure other than end-of-input before a
terminating byte is found (and before the overflow threshold), each decode
operation returns exactly that source error — never Overflow or NonMinimal —
and consumes nothing beyond the failing read. -/
theorem c9_source_failure_propagation :
    (∀ (cont : List Nat) (e : Nat) (rest : List ReadResult),
      (∀ c ∈ cont, 128 ≤ c ∧ c < 256) → cont.length ≤ 4 →
      DecodeU32 (List.map ReadResult.byte cont ++ ReadResult.fail e :: rest)
        = (Except.error (DecodeErr.source e), rest)) ∧
    (∀ (cont : List Nat) (e : Nat) (rest : List ReadResult),
      (∀ c ∈ cont, 128 ≤ c ∧ c < 256) → cont.length ≤ 9 →
      DecodeU64 (List.map ReadResult.byte cont ++ ReadResult.fail e :: rest)
        = (Except.error (DecodeErr.source e), rest)) ∧
    (∀ (cont : List Nat) (e : Nat) (rest : List ReadResult),
      (∀ c ∈ cont, 128 ≤ c ∧ c < 256) → cont.length ≤ 9 →
      DecodeS64 (List.map ReadResult.byte cont ++ ReadResult.fail e :: rest)
        = (Except.error (DecodeErr.source e), rest)) := by
  refine ⟨?_, ?_, ?_⟩
  · intro cont e rest hc hlen
    exact decodeU32Loop_fail cont 0 0 e rest hc (by omega)
  · intro cont e rest hc hlen
    exact decodeU64Loop_fail cont 0 0 e rest hc (by omega)
  · intro cont e rest hc hlen
    exact decodeS64Loop_fail cont 0 0 0 e rest hc (by omega)

/-- Witness for C9: a failure with code 42 after one continuation byte is
propagated unchanged by all three decoders, leaving the remainder unread. -/
theorem c9_source_failure_propagation_witness :
    DecodeU32 (List.map ReadResult.byte [0xFF] ++ ReadResult.fail 42 :: [ReadResult.byte 3])
      = (Except.error (DecodeErr.source 42), [ReadResult.byte 3]) ∧
    DecodeU64 (List.map ReadResult.byte [0xFF] ++ ReadResult.fail 42 :: [ReadResult.byte 3])
      = (Except.error (DecodeErr.source 42), [ReadResult.byte 3]) ∧
    DecodeS64 (List.map ReadResult.byte [0xFF] ++ ReadResult.fail 42 :: [ReadResult.byte 3])
      = (Except.error (DecodeErr.source 42), [ReadResult.byte 3]) :=
  ⟨c9_source_failure_propagation.1 [0xFF] 42 [ReadResult.byte 3] (by decide) (by decide),
   c9_source_failure_propagation.2.1 [0xFF] 42 [ReadResult.byte 3] (by decide) (by decide),
   c9_source_failure_propagation.2.2 [0xFF] 42 [ReadResult.byte 3] (by decide) (by decide)⟩

/-! ### Encoder output lengths -/

theorem encodeU32_length_pos (num : Nat) : 1 ≤ (EncodeU32 num).length := by
  rw [EncodeU32]
  by_cases h0 : num >>> 7 = 0
  · rw [if_pos h0]; simp
  · rw [if_neg h0]; simp

theorem encodeU64_length_pos (num : Nat) : 1 ≤ (EncodeU64 num).length := by
  rw [EncodeU64]
  by_cases h0 : num >>> 7 = 0
  · rw [if_pos h0]; simp
  · rw [if_neg h0]; simp

theorem encodeS64_length_pos (num : Int) : 1 ≤ (EncodeS64 num).length := by
  rw [EncodeS64]
  by_cases h0 : (Int.fdiv num 128 = 0 ∧ (Int.emod num 128).toNat &&& 0x40 = 0) ∨
      (Int.fdiv num 128 = -1 ∧ (Int.emod num 128).toNat &&& 0x40 ≠ 0)
  · rw [if_pos h0]; simp
  · rw [if_neg h0]; simp

theorem encodeU32_length_le : ∀ (k num : Nat), 1 ≤ k → num < 2^(7*k) →
    (EncodeU32 num).length ≤ k := by
  intro k
  induction k with
  | zero => intro num h1 _; omega
  | succ k ihk =>
    intro num h1 hnum
    rw [EncodeU32]
    by_cases h0 : num >>> 7 = 0
    · rw [if_pos h0]; simp
    · rw [if_neg h0]
      simp only [List.length_cons]
      have hge : 128 ≤ num := by
        have h0' := h0
        rw [Nat.shiftRight_eq_div_pow] at h0'
        norm_num at h0'
        omega
      have hk1 : 1 ≤ k := by
        by_contra hk0
        have hk : k = 0 := by omega
        subst hk
        norm_num at hnum
        omega
      have hdivlt : num >>> 7 < 2^(7*k) := by
        rw [Nat.shiftRight_eq_div_pow]
        norm_num
        have hsp : (2:Nat)^(7*(k+1)) = 2^(7*k) * 128 := by
          rw [show 7*(k+1) = 7*k + 7 by ring, pow_add]
          norm_num
        omega
      have := ihk (num >>> 7) hk1 hdivlt
      omega

theorem encodeU64_length_le : ∀ (k num : Nat), 1 ≤ k → num < 2^(7*k) →
    (EncodeU64 num).length ≤ k := by
  intro k
  induction k with
  | zero => intro num h1 _; omega
  | succ k ihk =>
    intro num h1 hnum
    rw [EncodeU64]
    by_cases h0 : num >>> 7 = 0
    · rw [if_pos h0]; simp
    · rw [if_neg h0]
      simp only [List.length_cons]
      have hge : 128 ≤ num := by
        have h0' := h0
        rw [Nat.shiftRight_eq_div_pow] at h0'
        norm_num at h0'
        omega
      have hk1 : 1 ≤ k := by
        by_contra hk0
        have hk : k = 0 := by omega
        subst hk
        norm_num at hnum
        omega
      have hdivlt : num >>> 7 < 2^(7*k) := by
        rw [Nat.shiftRight_eq_div_pow]
        norm_num
        have hsp : (2:Nat)^(7*(k+1)) = 2^(7*k) * 128 := by
          rw [show 7*(k+1) = 7*k + 7 by ring, pow_add]
          norm_num
        omega
      have := ihk (num >>> 7) hk1 hdivlt
      omega

theorem encodeS64_length_le : ∀ (k : Nat) (num : Int), 1 ≤ k →
    -(2:Int)^(7*k-1) ≤ num → num < 2^(7*k-1) →
    (EncodeS64 num).length ≤ k := by
  intro k
  induction k with
  | zero => intro num h1 _ _; omega
  | succ k ihk =>
    intro num h1 hlo hhi
    rw [EncodeS64]
    by_cases hdone : (Int.fdiv num 128 = 0 ∧ (Int.emod num 128).toNat &&& 0x40 = 0) ∨
        (Int.fdiv num 128 = -1 ∧ (Int.emod num 128).toNat &&& 0x40 ≠ 0)
    · rw [if_pos hdone]; simp
    · rw [if_neg hdone]
      simp only [List.length_cons]
      have hconv : Int.fdiv num 128 = num / 128 := Int.fdiv_eq_ediv _ (by norm_num)
      have hrfl : Int.emod num 128 = num % 128 := rfl
      have hm0 : 0 ≤ num % 128 := Int.emod_nonneg num (by norm_num)
      have hmlt : num % 128 < 128 := Int.emod_lt_of_pos num (by norm_num)
      have hk1 : 1 ≤ k := by
        by_contra hk0
        have hk : k = 0 := by omega
        subst hk
        norm_num at hlo hhi
        apply hdone
        by_cases hpos : 0 ≤ num
        · left
          refine ⟨by rw [hconv]; omega, ?_⟩
          refine (and64_iff _ (by rw [hrfl]; omega)).2 ?_
          rw [hrfl]
          omega
        · right
          refine ⟨by rw [hconv]; omega, ?_⟩
          intro hz
          have := (and64_iff ((Int.emod num 128).toNat) (by rw [hrfl]; omega)).1 hz
          rw [hrfl] at this
          omega
      have hexp : 7*(k+1) - 1 = (7*k - 1) + 7 := by omega
      have hpow : (2:Int)^(7*k-1) * 128 = 2^(7*(k+1)-1) := by
        rw [hexp, pow_add]
        norm_num
      have hq_lo : -(2:Int)^(7*k-1) ≤ Int.fdiv num 128 := by
        rw [hconv, Int.le_ediv_iff_mul_le (by norm_num : (0:Int) < 128)]
        calc -(2:Int)^(7*k-1) * 128 = -(2^(7*k-1) * 128) := by ring
        _ = -(2:Int)^(7*(k+1)-1) := by rw [hpow]
        _ ≤ num := hlo
      have hq_hi : Int.fdiv num 128 < 2^(7*k-1) := by
        rw [hconv, Int.ediv_lt_iff_lt_mul (by norm_num : (0:Int) < 128), hpow]
        exact hhi
      have := ihk (Int.fdiv num 128) hk1 hq_lo hq_hi
      omega

/-- C10: each encoder returns a non-empty byte sequence of bounded length:
between 1 and 5 bytes for `EncodeU32`, and between 1 and 10 bytes for
`EncodeU64` and `EncodeS64` (the Go capacity hints of 4 resp. 8 bytes are
only allocation hints, not output bounds). -/
theorem c10_encode_length_bounds :
    (∀ v : Nat, v < 2^32 →
      1 ≤ (EncodeU32 v).length ∧ (EncodeU32 v).length ≤ 5) ∧
    (∀ v : Nat, v < 2^64 →
      1 ≤ (EncodeU64 v).length ∧ (EncodeU64 v).length ≤ 10) ∧
    (∀ v : Int, -2^63 ≤ v → v < 2^63 →
      1 ≤ (EncodeS64 v).length ∧ (EncodeS64 v).length ≤ 10) := by
  refine ⟨?_, ?_, ?_⟩
  · intro v hv
    refine ⟨encodeU32_length_pos v, encodeU32_length_le 5 v (by norm_num) ?_⟩
    calc v < 2^32 := hv
    _ ≤ 2^(7*5) := by norm_num
  · intro v hv
    refine ⟨encodeU64_length_pos v, encodeU64_length_le 10 v (by norm_num) ?_⟩
    calc v < 2^64 := hv
    _ ≤ 2^(7*10) := by norm_num
  · intro v hv1 hv2
    refine ⟨encodeS64_length_pos v, encodeS64_length_le 10 v (by norm_num) ?_ ?_⟩
    · calc -(2:Int)^(7*10-1) ≤ -2^63 := by norm_num
      _ ≤ v := hv1
    · calc v < 2^63 := hv2
      _ ≤ 2^(7*10-1) := by norm_num

/-- Witness for C10 at concrete values, including a full-width negative. -/
theorem c10_encode_length_bounds_witness :
    (1 ≤ (EncodeU32 300).length ∧ (EncodeU32 300).length ≤ 5) ∧
    (1 ≤ (EncodeU64 (2^64-1)).length ∧ (EncodeU64 (2^64-1)).length ≤ 10) ∧
    (1 ≤ (EncodeS64 (-2^63)).length ∧ (EncodeS64 (-2^63)).length ≤ 10) :=
  ⟨c10_encode_length_bounds.1 300 (by norm_num),
   c10_encode_length_bounds.2.1 (2^64-1) (by norm_num),
   c10_encode_length_bounds.2.2 (-2^63) (by norm_num) (by norm_num)⟩

end Leb128
